import Mathlib

/-!
Verification of the helm-chart offline converter
(`src/tools/helm_chart_converter/chart_converter.py`, with `src/main.py` as the
earlier variant of the same program).

The development shallow-embeds the program's data model and operations:

* Python strings are `String` / `List Char`; `str.split('/')`, `str.strip()`,
  `in` (substring test) and `str.rstrip('/')` are translated character by
  character.
* The YAML document loaded by `yaml.safe_load` is the tagged tree `Yaml`
  (mappings with string keys, sequences, scalars).
* The fresh output dictionary `offline_values` built by
  `find_and_update_images` is the tagged tree `OutVal`; Python dict update and
  `setdefault` are translated as first-match association-list operations.
* `re.findall` for the one fixed pattern `IMAGE_REGEX` is translated as a
  direct scanner over `List Char` implementing that pattern's matching.
* External processes are oracles: a `World` maps an argument vector to the
  outcome of running it, and the orchestrator is a function from the `World`
  to an exit status plus a trace of effects (process invocations, directory
  creation, file writes, console messages).
-/

namespace ChartConverter

/-! ## Python string primitives -/

/-- The single-quote character, written via its code point. -/
def squote : Char := Char.ofNat 39

/-- Wrap a string in single quotes (used by several of the program's
messages). -/
def sq (s : String) : String := String.mk [squote] ++ s ++ String.mk [squote]

/-- Whitespace as recognised by Python's `str.strip()` / `str.isspace()` and
by `\s` in a `str` regular expression (Latin-1 part plus the Unicode space
code points). -/
def isSpace (c : Char) : Bool :=
  c = ' ' || c = '\t' || c = '\n' || c = '\r' || c = '\x0b' || c = '\x0c' ||
  c = '\x1c' || c = '\x1d' || c = '\x1e' || c = '\x1f' || c = '\x85' ||
  c = '\xa0' || c = ' ' ||
  (0x2000 ≤ c.toNat && c.toNat ≤ 0x200a) ||
  c = ' ' || c = ' ' || c = ' ' || c = ' ' || c = '　'

/-- Python `str.strip()`: drop leading and trailing whitespace. -/
def pyStripChars (cs : List Char) : List Char :=
  ((cs.dropWhile isSpace).reverse.dropWhile isSpace).reverse

/-- Python `str.strip()` on a `String`. -/
def pyStrip (s : String) : String := String.mk (pyStripChars s.toList)

/-- Python `str.split('/')` on a character list: split at every `/`,
producing at least one (possibly empty) piece. -/
def splitSlash : List Char → List (List Char)
  | [] => [[]]
  | c :: t =>
    if c = '/' then [] :: splitSlash t
    else
      match splitSlash t with
      | h :: r => (c :: h) :: r
      | [] => [[c]]

/-- Python `s.split('/')[-1]`: the piece after the final `/` (the whole
string when there is no `/`). Used for image short names, the `repository`
rewrite, the chart short name and `os.path.basename`. -/
def lastSegment (s : String) : String :=
  String.mk ((splitSlash s.toList).getLastD [])

/-- Python `str.rstrip('/')`: drop every trailing slash. -/
def rstripSlash (s : String) : String :=
  String.mk (s.toList.reverse.dropWhile (· = '/')).reverse

/-- Does `hay` start with `needle`? -/
def startsWithL (needle hay : List Char) : Bool :=
  match needle, hay with
  | [], _ => true
  | _ :: _, [] => false
  | n :: ns, h :: hs => n = h && startsWithL ns hs

/-- Python `needle in hay` (substring containment). -/
def containsSub (needle : List Char) : List Char → Bool
  | [] => startsWithL needle []
  | c :: t => startsWithL needle (c :: t) || containsSub needle t

/-- Substring containment on `String`s. -/
def strContains (hay needle : String) : Bool :=
  containsSub needle.toList hay.toList

/-! ## The configuration tree (`yaml.safe_load` result) -/

/-- A YAML document as loaded by `yaml.safe_load`: mappings (string keys, in
document order), sequences and scalars. -/
inductive Yaml where
  | str (s : String)
  | int (n : Int)
  | bool (b : Bool)
  | null
  | map (entries : List (String × Yaml))
  | seq (items : List Yaml)

/-- One step of a path through the tree: a mapping key or a sequence index
(`find_and_update_images` extends `path` with dict keys and `enumerate`
indices). -/
inductive PathElem where
  | key (k : String)
  | idx (i : Nat)
deriving DecidableEq

/-- Python dict lookup / `in` on a mapping node: first matching key. -/
def lookupY : List (String × Yaml) → String → Option Yaml
  | [], _ => none
  | (k, v) :: rest, key => if k = key then some v else lookupY rest key

/-- Key sets of every mapping are duplicate-free: every tree that
`yaml.safe_load` can actually produce satisfies this, since Python dict keys
are unique. -/
def nodupKeys : List String → Bool
  | [] => true
  | k :: rest => (!rest.contains k) && nodupKeys rest

mutual

/-- Well-formedness of a loaded document: all mapping nodes have
duplicate-free keys (true of every Python dict). -/
def wfY : Yaml → Bool
  | .map es => nodupKeys (es.map Prod.fst) && wfEntries es
  | .seq l => wfItems l
  | _ => true

def wfEntries : List (String × Yaml) → Bool
  | [] => true
  | (_, v) :: rest => wfY v && wfEntries rest

def wfItems : List Yaml → Bool
  | [] => true
  | v :: rest => wfY v && wfItems rest

end

/-! ## The output tree (`offline_values`) -/

/-- A value of the fresh `offline_values` structure: Python strings and dicts
(keyed by strings or list indices). `seqV` is the Python list shape — it is
representable, and the development proves the walk never creates it. -/
inductive OutVal where
  | str (s : String)
  | node (entries : List (PathElem × OutVal))
  | seqV (items : List OutVal)

/-- Python dict lookup on an output node: first matching key. -/
def lookupOut : List (PathElem × OutVal) → PathElem → Option OutVal
  | [], _ => none
  | (k, v) :: rest, key => if k = key then some v else lookupOut rest key

/-- Python dict assignment `d[k] = v`: replace in place, or append. -/
def setOut : List (PathElem × OutVal) → PathElem → OutVal → List (PathElem × OutVal)
  | [], k, v => [(k, v)]
  | (k', v') :: rest, k, v =>
    if k' = k then (k, v) :: rest else (k', v') :: setOut rest k v

/-- Navigation in the output tree along a path of keys. -/
def lookupPath : OutVal → List PathElem → Option OutVal
  | t, [] => some t
  | .node es, k :: ks =>
    match lookupOut es k with
    | some v => lookupPath v ks
    | none => none
  | _, _ :: _ => none

/-- The unhandled exceptions the walk can raise: `attrSplit` is the
`AttributeError` from `data['repository'].split('/')` when that value is not
a string; `typeErr` is the `AttributeError`/`TypeError` from running
`setdefault` on, or assigning into, a non-dict that an earlier write left at
an intermediate position. -/
inductive WalkErr where
  | attrSplit
  | typeErr
deriving DecidableEq

/-- One matched block's effect on `offline_values`: walk `path` with
`current_node.setdefault(key, {})`, then `current_node['registry'] =
private_registry` and `current_node['repository'] =
data['repository'].split('/')[-1]`. Python evaluates the split after the
descent and the `registry` assignment, so a descent failure surfaces first;
the intermediate mutations before an exception are unobservable, since the
exception kills the process before the file is written. -/
def updateOut : OutVal → List PathElem → String → Yaml → Except WalkErr OutVal
  | .node es, [], reg, repoVal =>
    match repoVal with
    | .str s =>
      .ok (.node (setOut (setOut es (.key "registry") (.str reg))
        (.key "repository") (.str (lastSegment s))))
    | _ => .error .attrSplit
  | .node es, k :: ks, reg, repoVal =>
    (match lookupOut es k with
    | some child =>
      match updateOut child ks reg repoVal with
      | .ok child2 => .ok (.node (setOut es k child2))
      | .error e => .error e
    | none =>
      match updateOut (.node []) ks reg repoVal with
      | .ok child2 => .ok (.node (es ++ [(k, child2)]))
      | .error e => .error e)
  | _, _, _, _ => .error .typeErr

mutual

/-- The matched blocks of the walk, in traversal order (pre-order, a match
does not stop descent): every mapping node that contains both a
`repository` and a `tag` key contributes its path and its `repository`
value. -/
def collectM : Yaml → List PathElem → List (List PathElem × Yaml)
  | .map es, path =>
    (match lookupY es "repository", lookupY es "tag" with
     | some rv, some _ => [(path, rv)]
     | _, _ => []) ++
    collectEntries path es
  | .seq items, path => collectItems path 0 items
  | _, _ => []

def collectEntries (path : List PathElem) : List (String × Yaml) → List (List PathElem × Yaml)
  | [] => []
  | (k, v) :: rest =>
    collectM v (path ++ [.key k]) ++ collectEntries path rest

def collectItems (path : List PathElem) : Nat → List Yaml → List (List PathElem × Yaml)
  | _, [] => []
  | i, v :: rest =>
    collectM v (path ++ [.idx i]) ++ collectItems path (i + 1) rest

end

/-- Apply the matched blocks' writes to the accumulator in order, stopping at
the first unhandled exception. -/
def runWrites (preg : String) : List (List PathElem × Yaml) → OutVal → Except WalkErr OutVal
  | [], acc => .ok acc
  | (p, rv) :: rest, acc =>
    match updateOut acc p preg rv with
    | .ok acc2 => runWrites preg rest acc2
    | .error e => .error e

/-- `find_and_update_images(original_values, [])` with `offline_values = {}`:
the walk's only observable action is the sequence of writes of its matched
blocks, in traversal order, on the initially empty output dict. -/
def findAndUpdateImages (preg : String) (data : Yaml) : Except WalkErr OutVal :=
  runWrites preg (collectM data []) (.node [])

/-- `generate_offline_values` after the helm invocation and the YAML load:
run the walk, then unconditionally set `global.imageRegistry` on the output
(creating `global` when the walk did not). -/
def generateOfflineValues (preg : String) (original : Yaml) : Except WalkErr OutVal :=
  match findAndUpdateImages preg original with
  | .error e => .error e
  | .ok (.node es) =>
    let es1 := if (lookupOut es (.key "global")).isSome then es
               else es ++ [(.key "global", .node [])]
    match lookupOut es1 (.key "global") with
    | some (.node ges) =>
      .ok (.node (setOut es1 (.key "global")
        (.node (setOut ges (.key "imageRegistry") (.str preg)))))
    | _ => .error .typeErr
  | .ok _ => .error .typeErr

mutual

/-- No Python list anywhere in an output value. -/
def noSeq : OutVal → Bool
  | .str _ => true
  | .seqV _ => false
  | .node es => noSeqEntries es

def noSeqEntries : List (PathElem × OutVal) → Bool
  | [] => true
  | (_, v) :: rest => noSeq v && noSeqEntries rest

end

/-! ## The image regular expression

`IMAGE_REGEX = re.compile(r'image:\s*["\x27]?([a-zA-Z0-9-./_:@]+)["\x27]?')`
and `IMAGE_REGEX.findall(text)`: scan left to right; at each position try to
match; on success capture the group and continue after the match. The
regular expression is simple enough that greedy matching needs no
backtracking: whitespace, quote and token characters are disjoint, so the
scanner below implements exactly the matches of this one pattern. -/

/-- The bracket expression `[a-zA-Z0-9-./_:@]` (after `0-9`, the `-` is
literal; the range `-.` would denote the same two characters). -/
def isTokenCh (c : Char) : Bool :=
  ('a' ≤ c && c ≤ 'z') || ('A' ≤ c && c ≤ 'Z') || ('0' ≤ c && c ≤ '9') ||
  c = '-' || c = '.' || c = '/' || c = '_' || c = ':' || c = '@'

/-- The bracket expression of the two quote characters. -/
def isQuote (c : Char) : Bool := c = '"' || c = squote

/-- Strip an exact prefix, or fail. -/
def dropPrefixL : List Char → List Char → Option (List Char)
  | [], cs => some cs
  | _ :: _, [] => none
  | p :: ps, c :: cs => if c = p then dropPrefixL ps cs else none

/-- The trailing `["\x27]?`: consume one quote when present. -/
def dropCloseQuote : List Char → List Char
  | [] => []
  | c :: r => if isQuote c then r else c :: r

/-- Try to match the pattern at the start of `cs`; on success return the
captured group and the remainder after the whole match. -/
def matchAt (cs : List Char) : Option (List Char × List Char) :=
  match dropPrefixL ("image:".toList) cs with
  | none => none
  | some r1 =>
    match r1.dropWhile isSpace with
    | [] => none
    | c :: rest =>
      if isQuote c then
        match rest with
        | [] => none
        | d :: _ =>
          if isTokenCh d then
            some (rest.takeWhile isTokenCh, dropCloseQuote (rest.dropWhile isTokenCh))
          else none
      else
        if isTokenCh c then
          some ((c :: rest).takeWhile isTokenCh,
            dropCloseQuote ((c :: rest).dropWhile isTokenCh))
        else none

/-- The scan loop, with fuel for termination; every step consumes at least
one character, so fuel equal to the text length is always enough
(`findAllFuel_eq` below makes the fuel irrelevance precise). -/
def findAllFuel : Nat → List Char → List String
  | 0, _ => []
  | _ + 1, [] => []
  | fuel + 1, c :: t =>
    match matchAt (c :: t) with
    | some (tok, rest) => String.mk tok :: findAllFuel fuel rest
    | none => findAllFuel fuel t

/-- `IMAGE_REGEX.findall(text)` over a character list. -/
def findAll (cs : List Char) : List String := findAllFuel cs.length cs

/-- `set(IMAGE_REGEX.findall(template_output))`. -/
def foundImages (templateOutput : String) : Finset String :=
  (findAll templateOutput.toList).toFinset

/-! ## Image mirroring (`process_image`) -/

/-- `image_name_part = original_image.split('/')[-1]`. -/
def imageNamePart (originalImage : String) : String := lastSegment originalImage

/-- `new_image_tag = f"{private_registry}/{image_name_part}"`. -/
def newImageTag (originalImage privateRegistry : String) : String :=
  privateRegistry ++ "/" ++ imageNamePart originalImage

/-! ## The command runner -/

/-- `CommandResult`: stdout, stderr and exit status of one invocation. -/
structure CommandResult where
  stdout : String
  stderr : String
  returncode : Int
deriving DecidableEq

/-- `CommandResult.success`: exit status zero. -/
def CommandResult.success (r : CommandResult) : Bool := r.returncode == 0

/-- What the external process did: ran to completion (any exit status), or
the binary was not found (`FileNotFoundError`). -/
inductive SubprocessOutcome where
  | completed (stdout stderr : String) (returncode : Int)
  | binaryNotFound

/-- The value `run_command` produces: a completed process always becomes a
normal `CommandResult` with stripped streams (the `check=True` exception for
a non-zero status is caught and converted); a missing binary raises
`typer.Exit(code=1)` and is never a normal result. -/
def runCommandResult : SubprocessOutcome → Except Unit CommandResult
  | .completed out err code => .ok ⟨pyStrip out, pyStrip err, code⟩
  | .binaryNotFound => .error ()

/-- The substring `process_image` looks for in a failed push's combined
output. -/
def immutableMsg : String := "configured as immutable"

/-- How one `process_image` call ends. -/
inductive MirrorOutcome where
  | continueNext
  | exitFatal
deriving DecidableEq

/-- `process_image`'s control flow as a function of the three command
results: pull failure fatal, tag failure fatal, push failure benign exactly
when the combined output mentions the immutable-tag condition. -/
def processImage (pullR tagR pushR : CommandResult) : MirrorOutcome :=
  if !pullR.success then .exitFatal
  else if !tagR.success then .exitFatal
  else if !pushR.success then
    (if strContains (pushR.stdout ++ pushR.stderr) immutableMsg then .continueNext
     else .exitFatal)
  else .continueNext

/-! ## The orchestrator (`run`), as a trace of effects

External processes, the YAML parser and the filesystem glob are oracles in
a `World`; the orchestrator maps a `World` to the list of its observable
effects plus an exit code (`.ok ()` is a normal return, exit code 0). -/

/-- One observable effect of the pipeline. -/
inductive Effect where
  | print (msg : String)
  | execPr (args : List String)
  | makeDirs (dir : String)
  | writeValuesFile (path : String)
  | echoSummary (msg : String)
deriving DecidableEq

/-- The oracles: `subprocess.run`, `yaml.safe_load` (`none` = parse error)
and `glob.glob`. -/
structure World where
  exec : List String → SubprocessOutcome
  parseYaml : String → Option Yaml
  glob : String → List String

/-- `run_command`: announce, invoke, and either return the result or (on a
missing binary) report and raise `typer.Exit(1)`. -/
def runCommandW (w : World) (args : List String) :
    List Effect × Except Unit CommandResult :=
  let pr := Effect.print ("🔩 正在执行: " ++ String.intercalate " " args)
  match w.exec args with
  | .completed _ _ _ => ([pr, .execPr args], runCommandResult (w.exec args))
  | .binaryNotFound =>
    ([pr, .execPr args,
      .print ("❌ 致命错误: 命令 " ++ sq (args.headD "") ++
        " 未找到。请确认它是否已安装并在系统的 PATH 路径中。")],
     runCommandResult (w.exec args))

/-- `["--version", v]` when a version is pinned. -/
def versionArgs : Option String → List String
  | some v => ["--version", v]
  | none => []

def repoUpdateCmd : List String := ["helm", "repo", "update"]

def templateCmd (chart : String) (version : Option String) : List String :=
  ["helm", "template", "release-name-placeholder", chart] ++ versionArgs version

def showValuesCmd (chart : String) (version : Option String) : List String :=
  ["helm", "show", "values", chart] ++ versionArgs version

def fetchCmd (chart outputDir : String) (version : Option String) : List String :=
  ["helm", "fetch", chart, "--destination", outputDir] ++ versionArgs version

/-- `get_images_from_chart`: render the template, fatal if that fails,
else collect the distinct matches of the image pattern. -/
def getImagesW (w : World) (chart : String) (version : Option String) :
    List Effect × Except Unit (List String) :=
  let pr0 := Effect.print ("\n🔍 步骤 1: 在 Chart " ++ sq chart ++ " 中查找所有容器镜像...")
  match runCommandW w (templateCmd chart version) with
  | (tr1, .error _) => (pr0 :: tr1, .error ())
  | (tr1, .ok r) =>
    if !r.success then
      (pr0 :: tr1 ++
        [.print ("❌ 错误: " ++ sq "helm template" ++ " 执行失败。无法从 Chart 中提取镜像。"),
         .print ("   错误详情: " ++ r.stderr)], .error ())
    else
      let found := (findAll r.stdout.toList).dedup
      if found.isEmpty then
        (pr0 :: tr1 ++ [.print ("⚠️ 警告: 在 Chart " ++ sq chart ++ " 中没有找到任何镜像。")],
         .ok found)
      else
        (pr0 :: tr1 ++ [.print ("✅ 成功找到 " ++ toString found.length ++ " 个唯一镜像。")],
         .ok found)

/-- `process_image`, with its console output and early exits. -/
def processImageW (w : World) (originalImage privateRegistry : String) :
    List Effect × Except Unit Unit :=
  let newTag := newImageTag originalImage privateRegistry
  let pr0 := Effect.print ("\n🔄 正在处理镜像: " ++ originalImage)
  let pr1 := Effect.print ("   -> 拉取 " ++ sq originalImage ++ "...")
  match runCommandW w ["docker", "pull", originalImage] with
  | (trP, .error _) => ([pr0, pr1] ++ trP, .error ())
  | (trP, .ok rp) =>
    if !rp.success then
      ([pr0, pr1] ++ trP ++
        [.print ("❌ 错误: 拉取镜像 " ++ sq originalImage ++ " 失败。"),
         .print ("   错误详情: " ++ rp.stderr)], .error ())
    else
      let pr2 := Effect.print ("   -> 标记为 " ++ sq newTag ++ "...")
      match runCommandW w ["docker", "tag", originalImage, newTag] with
      | (trT, .error _) => ([pr0, pr1] ++ trP ++ [pr2] ++ trT, .error ())
      | (trT, .ok rt) =>
        if !rt.success then
          ([pr0, pr1] ++ trP ++ [pr2] ++ trT ++
            [.print ("❌ 错误: 标记镜像 " ++ sq originalImage ++ " 失败。"),
             .print ("   错误详情: " ++ rt.stderr)], .error ())
        else
          let pr3 := Effect.print ("   -> 推送至 " ++ sq newTag ++ "...")
          match runCommandW w ["docker", "push", newTag] with
          | (trU, .error _) =>
            ([pr0, pr1] ++ trP ++ [pr2] ++ trT ++ [pr3] ++ trU, .error ())
          | (trU, .ok ru) =>
            if !ru.success then
              if strContains (ru.stdout ++ ru.stderr) immutableMsg then
                ([pr0, pr1] ++ trP ++ [pr2] ++ trT ++ [pr3] ++ trU ++
                  [.print ("✅ 推送镜像 " ++ sq newTag ++ " 失败，镜像已存在。"),
                   .print ("   ✅ 成功处理 " ++ sq originalImage)], .ok ())
              else
                ([pr0, pr1] ++ trP ++ [pr2] ++ trT ++ [pr3] ++ trU ++
                  [.print ("❌ 错误: 推送镜像 " ++ sq newTag ++ " 失败。"),
                   .print ("   错误详情: " ++ ru.stderr)], .error ())
            else
              ([pr0, pr1] ++ trP ++ [pr2] ++ trT ++ [pr3] ++ trU ++
                [.print ("   ✅ 成功处理 " ++ sq originalImage)], .ok ())

/-- The mirror loop over the sorted image list; the first fatal image aborts. -/
def processImagesW (w : World) (privateRegistry : String) :
    List String → List Effect × Except Unit Unit
  | [] => ([], .ok ())
  | img :: rest =>
    match processImageW w img privateRegistry with
    | (tr1, .error e) => (tr1, .error e)
    | (tr1, .ok _) =>
      match processImagesW w privateRegistry rest with
      | (tr2, r2) => (tr1 ++ tr2, r2)

/-- Python string `<`: lexicographic comparison of code points. -/
def strLtL : List Char → List Char → Bool
  | [], [] => false
  | [], _ :: _ => true
  | _ :: _, [] => false
  | a :: as, b :: bs =>
    if a.toNat < b.toNat then true
    else if b.toNat < a.toNat then false
    else strLtL as bs

/-- `sorted(...)` on Python strings compares code points; on a
duplicate-free list an insertion sort produces the same ascending order. -/
def strLe (a b : String) : Bool := !(strLtL b.toList a.toList)

def insertSorted (x : String) : List String → List String
  | [] => [x]
  | y :: r => if strLe x y then x :: y :: r else y :: insertSorted x r

def sortImages : List String → List String
  | [] => []
  | x :: r => insertSorted x (sortImages r)

/-- `generate_offline_values` with its console output: fetch the default
values, fatal if that fails; an unparsable document or a walk exception
kills the process before the file is written. -/
def generateOfflineValuesW (w : World) (chart privateRegistry outputDir : String)
    (version : Option String) : List Effect × Except Unit Unit :=
  let pr0 := Effect.print "\n📝 步骤 3: 正在生成 offline-values.yaml 文件..."
  match runCommandW w (showValuesCmd chart version) with
  | (tr1, .error _) => (pr0 :: tr1, .error ())
  | (tr1, .ok r) =>
    if !r.success then
      (pr0 :: tr1 ++
        [.print ("❌ 错误: " ++ sq "helm show values" ++ " 执行失败。无法生成 values 文件。"),
         .print ("   错误详情: " ++ r.stderr)], .error ())
    else
      match w.parseYaml r.stdout with
      | none => (pr0 :: tr1, .error ())
      | some original =>
        match generateOfflineValues privateRegistry original with
        | .error _ => (pr0 :: tr1, .error ())
        | .ok _ =>
          let path := outputDir ++ "/offline-values.yaml"
          (pr0 :: tr1 ++ [.writeValuesFile path, .print ("✅ 成功生成 " ++ sq path ++ "。")],
           .ok ())

def versionSuffix : Option String → String
  | some v => "-" ++ v
  | none => ""

/-- `output_dir = f"./build/{chart_simple_name}{version_suffix}-offline"`. -/
def outputDirOf (chart : String) (version : Option String) : String :=
  "./build/" ++ lastSegment chart ++ versionSuffix version ++ "-offline"

/-- The final `helm install` recipe. -/
def deploymentCommand (chartTgz ns chartSimpleName : String) : String :=
  "helm install " ++ chartSimpleName ++ " ./" ++ chartTgz ++ " \\\n" ++
  "  -f ./offline-values.yaml \\\n" ++
  "  --namespace " ++ ns ++ " --create-namespace"

/-- The summary passed to `typer.echo`. -/
def summaryText (outputDir deployCmd : String) : String :=
  "\n[bold green]🎉 恭喜！一键转换完成！ 🎉[/bold green]\n\n" ++
  "所有容器镜像均已推送至您的私有仓库。\n" ++
  "部署所需的所有文件都已保存在以下目录中:\n  [yellow]" ++
  sq (outputDir ++ "/") ++ "[/yellow]\n\n" ++
  "下一步，请将整个文件夹传输到您的离线环境中，然后执行以下命令进行部署:\n\n" ++
  "--- [bold cyan]离线环境部署命令[/bold cyan] ---\n" ++
  "[bold]cd " ++ outputDir ++ "[/bold]\n" ++
  "[bold]" ++ deployCmd ++ "[/bold]\n" ++
  "--------------------------\n    "

/-- The `run` command: the linear pipeline with its early-exit and fatal
points. `.ok ()` means a normal return (exit 0); `.error c` means
`typer.Exit(code=c)` (the no-image early exit is `typer.Exit()`, code 0). -/
def runPipeline (w : World) (chart registry : String) (version : Option String)
    (ns : String) : List Effect × Except Nat Unit :=
  let private_registry := rstripSlash registry
  let chart_simple_name := lastSegment chart
  let pr0 := Effect.print "🔄 正在更新 Helm 仓库..."
  match runCommandW w repoUpdateCmd with
  | (trU, .error _) => (pr0 :: trU, .error 1)
  | (trU, .ok ru) =>
    let trU2 := pr0 :: trU ++
      (if !ru.success then
        [Effect.print ("⚠️  警告: " ++ sq "helm repo update" ++ " 失败。将尝试使用本地缓存。"),
         Effect.print ("   错误详情: " ++ ru.stderr)]
      else [Effect.print "✅ Helm 仓库更新完成。"])
    match getImagesW w chart version with
    | (trI, .error _) => (trU2 ++ trI, .error 1)
    | (trI, .ok images) =>
      if images.isEmpty then
        (trU2 ++ trI ++ [.print "\n没有找到需要处理的镜像，程序退出。"], .error 0)
      else
        let pr2 := Effect.print "\n🚀 步骤 2: 开始迁移所有镜像至您的私有仓库..."
        match processImagesW w private_registry (sortImages images) with
        | (trM, .error _) => (trU2 ++ trI ++ [pr2] ++ trM, .error 1)
        | (trM, .ok _) =>
          let output_dir := outputDirOf chart version
          let trD := [Effect.makeDirs output_dir,
            Effect.print ("\n📦 已创建输出目录: " ++ output_dir)]
          match generateOfflineValuesW w chart private_registry output_dir version with
          | (trG, .error _) => (trU2 ++ trI ++ [pr2] ++ trM ++ trD ++ trG, .error 1)
          | (trG, .ok _) =>
            let pr4 := Effect.print "\n📥 步骤 4: 正在下载 Helm Chart 包..."
            match runCommandW w (fetchCmd chart output_dir version) with
            | (trF, .error _) =>
              (trU2 ++ trI ++ [pr2] ++ trM ++ trD ++ trG ++ [pr4] ++ trF, .error 1)
            | (trF, .ok rf) =>
              if !rf.success then
                (trU2 ++ trI ++ [pr2] ++ trM ++ trD ++ trG ++ [pr4] ++ trF ++
                  [.print ("❌ 错误: " ++ sq "helm fetch" ++ " 执行失败。"),
                   .print ("   错误详情: " ++ rf.stderr)], .error 1)
              else
                match w.glob (output_dir ++ "/" ++ chart_simple_name ++ "-*.tgz") with
                | [] =>
                  (trU2 ++ trI ++ [pr2] ++ trM ++ trD ++ trG ++ [pr4] ++ trF ++
                    [.print ("❌ 错误: 在目录 " ++ output_dir ++ " 中找不到下载的 Chart 包。")],
                   .error 1)
                | tgz0 :: _ =>
                  let chart_tgz := lastSegment tgz0
                  let deploy := deploymentCommand chart_tgz ns chart_simple_name
                  (trU2 ++ trI ++ [pr2] ++ trM ++ trD ++ trG ++ [pr4] ++ trF ++
                    [.print ("✅ 成功下载 " ++ sq chart_tgz),
                     .echoSummary (summaryText output_dir deploy)], .ok ())

/-- Exit status of a pipeline outcome: normal return is 0. -/
def pipelineExitCode : Except Nat Unit → Nat
  | .ok _ => 0
  | .error c => c

/-! ## Shape invariant of the output tree -/

mutual

/-- An entry of the output dict is sound: string values appear only under
the two produced field names, nested values are again sound dicts, and no
entry is a Python list. -/
def entryOkay : PathElem × OutVal → Bool
  | (k, .str _) =>
    decide (k = PathElem.key "registry") || decide (k = PathElem.key "repository")
  | (_, .node es) => entriesOkay es
  | (_, .seqV _) => false

def entriesOkay : List (PathElem × OutVal) → Bool
  | [] => true
  | e :: rest => entryOkay e && entriesOkay rest

end

/-- The accumulated output value is a sound dict. -/
def goodOut : OutVal → Bool
  | .node es => entriesOkay es
  | _ => false

/-! ## Characterising the matched blocks -/

/-- Navigate the source document along a path. -/
def yamlAt : Yaml → List PathElem → Option Yaml
  | d, [] => some d
  | .map es, .key k :: p =>
    (match lookupY es k with
    | some v => yamlAt v p
    | none => none)
  | .seq l, .idx i :: p =>
    (match l.get? i with
    | some v => yamlAt v p
    | none => none)
  | _, _ => none

/-- The detection rule of `find_and_update_images`, as navigation: the node
at `p` is a mapping with both a `repository` and a `tag` key; the result is
its `repository` value. -/
def matchedBlock (d : Yaml) (p : List PathElem) : Option Yaml :=
  match yamlAt d p with
  | some (.map es) =>
    (match lookupY es "repository", lookupY es "tag" with
    | some rv, some _ => some rv
    | _, _ => none)
  | _ => none

/-! ## Structural helpers -/

/-! A few sanity equations for the primitives. -/

theorem splitSlash_ne_nil (cs : List Char) : splitSlash cs ≠ [] := by
  induction cs with
  | nil => simp [splitSlash]
  | cons c t ih =>
    simp only [splitSlash]
    split
    · simp
    · cases h : splitSlash t with
      | nil => exact absurd h ih
      | cons a r => simp

/-- If a string has no slash, `splitSlash` returns just that string. -/
theorem splitSlash_no_slash (cs : List Char) (h : ∀ c ∈ cs, c ≠ '/') :
    splitSlash cs = [cs] := by
  induction cs with
  | nil => rfl
  | cons c t ih =>
    have hc : c ≠ '/' := h c (by simp)
    simp only [splitSlash, if_neg hc]
    rw [ih (fun x hx => h x (by simp [hx]))]

/-- A list containing a slash splits into at least two pieces. -/
theorem splitSlash_append_length (a b : List Char) :
    2 ≤ (splitSlash (a ++ '/' :: b)).length := by
  induction a with
  | nil =>
    show 2 ≤ (splitSlash ('/' :: b)).length
    rw [show splitSlash ('/' :: b) = [] :: splitSlash b from by simp [splitSlash]]
    cases h : splitSlash b with
    | nil => exact absurd h (splitSlash_ne_nil b)
    | cons x r => simp
  | cons c t ih =>
    show 2 ≤ (splitSlash (c :: (t ++ '/' :: b))).length
    by_cases hc : c = '/'
    · rw [show splitSlash (c :: (t ++ '/' :: b)) = [] :: splitSlash (t ++ '/' :: b)
        from by simp [splitSlash, hc]]
      cases h : splitSlash (t ++ '/' :: b) with
      | nil => exact absurd h (splitSlash_ne_nil _)
      | cons x r => simp
    · cases h : splitSlash (t ++ '/' :: b) with
      | nil => exact absurd h (splitSlash_ne_nil _)
      | cons x r =>
        rw [show splitSlash (c :: (t ++ '/' :: b)) = (c :: x) :: r
          from by simp [splitSlash, hc, h]]
        rw [h] at ih
        simpa using ih

/-- `splitSlash` of `a ++ '/' :: b` ends in the pieces of `b`. -/
theorem splitSlash_append_getLastD (a b : List Char) (hb : ∀ c ∈ b, c ≠ '/') :
    (splitSlash (a ++ '/' :: b)).getLastD [] = b := by
  induction a with
  | nil =>
    simp only [List.nil_append, splitSlash, if_pos rfl]
    rw [splitSlash_no_slash b hb]
    rfl
  | cons c t ih =>
    simp only [List.cons_append, splitSlash]
    split
    · rw [List.getLastD_cons]
      exact ih
    · have hlen := splitSlash_append_length t b
      cases h : splitSlash (t ++ '/' :: b) with
      | nil => exact absurd h (splitSlash_ne_nil _)
      | cons x r =>
        rw [h] at ih hlen
        cases r with
        | nil => simp at hlen
        | cons y s => simpa using ih

/-- The content of `lastSegment`: on `a ++ "/" ++ b` with `b` slash-free it
returns `b`. -/
theorem lastSegment_append (a b : String) (hb : ∀ c ∈ b.toList, c ≠ '/') :
    lastSegment (a ++ "/" ++ b) = b := by
  unfold lastSegment
  have : (a ++ "/" ++ b).toList = a.toList ++ '/' :: b.toList := by
    simp [String.toList]
  rw [this, splitSlash_append_getLastD _ _ hb]
  cases b
  rfl

theorem dropPrefixL_length {p cs r : List Char}
    (h : dropPrefixL p cs = some r) : p.length + r.length = cs.length := by
  induction p generalizing cs with
  | nil =>
    simp only [dropPrefixL, Option.some.injEq] at h
    simp [h]
  | cons x xs ih =>
    cases cs with
    | nil => simp [dropPrefixL] at h
    | cons c cs2 =>
      simp only [dropPrefixL] at h
      by_cases hc : c = x
      · rw [if_pos hc] at h
        have := ih h
        simp only [List.length_cons]
        omega
      · rw [if_neg hc] at h
        exact Option.noConfusion h

theorem dropWhileLen (p : Char → Bool) (cs : List Char) :
    (cs.dropWhile p).length ≤ cs.length := by
  induction cs with
  | nil => simp
  | cons c t ih =>
    by_cases hc : p c = true
    · simp only [List.dropWhile_cons, hc, if_true]
      simp only [List.length_cons]
      omega
    · simp [List.dropWhile_cons, hc]

theorem dropCloseQuote_length (cs : List Char) :
    (dropCloseQuote cs).length ≤ cs.length := by
  cases cs with
  | nil => simp [dropCloseQuote]
  | cons c t =>
    simp only [dropCloseQuote]
    by_cases hc : isQuote c = true
    · simp only [hc, if_true, List.length_cons]
      omega
    · simp [hc]

/-- A successful match consumes at least one character, so text-length fuel
never runs out. -/
theorem matchAt_consumes {cs tok rest : List Char}
    (h : matchAt cs = some (tok, rest)) : rest.length < cs.length := by
  cases hdp : dropPrefixL ("image:".toList) cs with
  | none =>
    have hdp2 : dropPrefixL ['i', 'm', 'a', 'g', 'e', ':'] cs = none := hdp
    have hn : matchAt cs = none := by simp [matchAt, hdp, hdp2]
    rw [hn] at h
    exact Option.noConfusion h
  | some r1 =>
    have hdp2 : dropPrefixL ['i', 'm', 'a', 'g', 'e', ':'] cs = some r1 := hdp
    have hl1 : 6 + r1.length = cs.length := by
      simpa using dropPrefixL_length hdp
    cases hdw : r1.dropWhile isSpace with
    | nil =>
      have hn : matchAt cs = none := by simp [matchAt, hdp, hdp2, hdw]
      rw [hn] at h
      exact Option.noConfusion h
    | cons c rest2 =>
      have hl2 : (c :: rest2).length ≤ r1.length := hdw ▸ dropWhileLen isSpace r1
      by_cases hq : isQuote c = true
      · cases rest2 with
        | nil =>
          have hn : matchAt cs = none := by simp [matchAt, hdp, hdp2, hdw, hq]
          rw [hn] at h
          exact Option.noConfusion h
        | cons d rest3 =>
          by_cases ht : isTokenCh d = true
          · have hm : matchAt cs = some ((d :: rest3).takeWhile isTokenCh,
                dropCloseQuote ((d :: rest3).dropWhile isTokenCh)) := by
              simp [matchAt, hdp, hdp2, hdw, hq, ht]
            rw [hm] at h
            injection h with h
            injection h with h1 h2
            have h3 := dropCloseQuote_length ((d :: rest3).dropWhile isTokenCh)
            have h4 := dropWhileLen isTokenCh (d :: rest3)
            rw [← h2]
            simp only [List.length_cons] at h4 hl2 ⊢
            omega
          · have hn : matchAt cs = none := by
              simp [matchAt, hdp, hdp2, hdw, hq, ht]
            rw [hn] at h
            exact Option.noConfusion h
      · by_cases ht : isTokenCh c = true
        · have hm : matchAt cs = some ((c :: rest2).takeWhile isTokenCh,
              dropCloseQuote ((c :: rest2).dropWhile isTokenCh)) := by
            simp [matchAt, hdp, hdp2, hdw, hq, ht]
          rw [hm] at h
          injection h with h
          injection h with h1 h2
          have h3 := dropCloseQuote_length ((c :: rest2).dropWhile isTokenCh)
          have h4 := dropWhileLen isTokenCh (c :: rest2)
          rw [← h2]
          simp only [List.length_cons] at h4 hl2 ⊢
          omega
        · have hn : matchAt cs = none := by
            simp [matchAt, hdp, hdp2, hdw, hq, ht]
          rw [hn] at h
          exact Option.noConfusion h

/-- Any fuel at least the text length gives the same scan, so `findAll`'s
choice of `cs.length` is canonical. -/
theorem findAllFuel_eq :
    ∀ (fuel fuel2 : Nat) (cs : List Char), cs.length ≤ fuel →
      cs.length ≤ fuel2 → findAllFuel fuel cs = findAllFuel fuel2 cs := by
  intro fuel
  induction fuel with
  | zero =>
    intro fuel2 cs h h2
    have : cs = [] := List.length_eq_zero.mp (Nat.le_zero.mp h)
    subst this
    cases fuel2 <;> simp [findAllFuel]
  | succ f ih =>
    intro fuel2 cs h h2
    cases cs with
    | nil => cases fuel2 <;> simp [findAllFuel]
    | cons c t =>
      cases fuel2 with
      | zero => simp at h2
      | succ f2 =>
        simp only [findAllFuel]
        cases hm : matchAt (c :: t) with
        | none =>
          have hlt : t.length ≤ f := by simp at h; omega
          have hlt2 : t.length ≤ f2 := by simp at h2; omega
          exact ih f2 t hlt hlt2
        | some pr =>
          obtain ⟨tok, rest⟩ := pr
          have hc := matchAt_consumes hm
          simp only [List.length_cons] at hc h h2
          show String.mk tok :: findAllFuel f rest =
            String.mk tok :: findAllFuel f2 rest
          rw [ih f2 rest (by omega) (by omega)]

/-- Induction over `Yaml` with membership hypotheses for the nested lists. -/
theorem yamlRecMem {motive : Yaml → Prop}
    (hstr : ∀ s, motive (.str s)) (hint : ∀ n, motive (.int n))
    (hbool : ∀ b, motive (.bool b)) (hnull : motive .null)
    (hmap : ∀ es, (∀ kv ∈ es, motive kv.2) → motive (.map es))
    (hseq : ∀ l, (∀ v ∈ l, motive v) → motive (.seq l)) :
    ∀ d, motive d
  | .str s => hstr s
  | .int n => hint n
  | .bool b => hbool b
  | .null => hnull
  | .map es => hmap es (fun kv hkv =>
      yamlRecMem hstr hint hbool hnull hmap hseq kv.2)
  | .seq l => hseq l (fun v hv =>
      yamlRecMem hstr hint hbool hnull hmap hseq v)
termination_by d => sizeOf d
decreasing_by
  · have h1 := List.sizeOf_lt_of_mem hkv
    obtain ⟨k, v⟩ := kv
    simp only [Prod.mk.sizeOf_spec] at h1
    simp only [Yaml.map.sizeOf_spec]
    omega
  · have h1 := List.sizeOf_lt_of_mem hv
    simp only [Yaml.seq.sizeOf_spec]
    omega

/-- A prefix of `l ++ [a]` is a prefix of `l` or the whole list. -/
theorem prefix_snoc_cases {α : Type} {l l2 : List α} {a : α}
    (h : l <+: l2 ++ [a]) : l <+: l2 ∨ l = l2 ++ [a] := by
  obtain ⟨r, hr⟩ := h
  rcases List.eq_nil_or_concat r with rfl | ⟨r', x, rfl⟩
  · right; simpa using hr
  · left
    rw [List.concat_eq_append, ← List.append_assoc] at hr
    have := (List.append_inj' hr rfl).1
    exact ⟨r', this⟩

/-- Distinct single extensions of a common list are prefix-incomparable. -/
theorem not_prefix_of_ne_elem {α : Type} {p : List α} {e f : α} {q1 q2 : List α}
    (hef : e ≠ f) (h1 : p ++ [e] <+: q1) (h2 : p ++ [f] <+: q2)
    (h12 : q2 <+: q1) : False := by
  have h2' : p ++ [f] <+: q1 := h2.trans h12
  rcases List.prefix_or_prefix_of_prefix h1 h2' with h | h
  · have := h.eq_of_length (by simp)
    have := (List.append_inj' this rfl).2
    simp at this
    exact hef this
  · have := h.eq_of_length (by simp)
    have := (List.append_inj' this rfl).2
    simp at this
    exact hef this.symm

/-! ## Association-list (Python dict) lemmas -/

theorem lookupOut_setOut_self (es : List (PathElem × OutVal)) (k : PathElem)
    (v : OutVal) : lookupOut (setOut es k v) k = some v := by
  induction es with
  | nil => simp [setOut, lookupOut]
  | cons e rest ih =>
    obtain ⟨k', v'⟩ := e
    by_cases h : k' = k
    · simp [setOut, h, lookupOut]
    · simp [setOut, h, lookupOut, ih]

theorem lookupOut_setOut_ne (es : List (PathElem × OutVal)) (k k' : PathElem)
    (v : OutVal) (h : k' ≠ k) :
    lookupOut (setOut es k v) k' = lookupOut es k' := by
  induction es with
  | nil => simp [setOut, lookupOut, Ne.symm h]
  | cons e rest ih =>
    obtain ⟨k0, v0⟩ := e
    by_cases h0 : k0 = k
    · subst h0
      simp [setOut, lookupOut, Ne.symm h]
    · simp only [setOut, if_neg h0, lookupOut]
      by_cases h1 : k0 = k'
      · simp [h1]
      · simp [h1, ih]

theorem lookupOut_append_of_none (es : List (PathElem × OutVal)) (k : PathElem)
    (v : OutVal) (h : lookupOut es k = none) :
    lookupOut (es ++ [(k, v)]) k = some v := by
  induction es with
  | nil => simp [lookupOut]
  | cons e rest ih =>
    obtain ⟨k0, v0⟩ := e
    by_cases h0 : k0 = k
    · simp [lookupOut, h0] at h
    · simp only [lookupOut, if_neg h0] at h
      simp [lookupOut, if_neg h0, ih h]

theorem lookupOut_append_ne (es : List (PathElem × OutVal)) (k k' : PathElem)
    (v : OutVal) (h : k' ≠ k) :
    lookupOut (es ++ [(k, v)]) k' = lookupOut es k' := by
  induction es with
  | nil => simp [lookupOut, Ne.symm h]
  | cons e rest ih =>
    obtain ⟨k0, v0⟩ := e
    by_cases h0 : k0 = k'
    · simp [lookupOut, h0]
    · simp [lookupOut, h0, ih]

/-! ## `updateOut` lemmas -/

/-- A successful write returns a dict at the top. -/
theorem updateOut_ok_node {t : OutVal} {p : List PathElem} {r : String}
    {rv : Yaml} {t' : OutVal} (h : updateOut t p r rv = .ok t') :
    ∃ es, t' = .node es := by
  cases t with
  | node es =>
    cases p with
    | nil =>
      cases rv <;> simp only [updateOut, Except.ok.injEq] at h
      case str => exact ⟨_, h.symm⟩
      all_goals exact Except.noConfusion h
    | cons k ks =>
      cases hl : lookupOut es k with
      | some child =>
        cases hu : updateOut child ks r rv with
        | ok child2 =>
          simp only [updateOut, hl, hu, Except.ok.injEq] at h
          exact ⟨_, h.symm⟩
        | error e =>
          simp only [updateOut, hl, hu] at h
          exact Except.noConfusion h
      | none =>
        cases hu : updateOut (.node []) ks r rv with
        | ok child2 =>
          simp only [updateOut, hl, hu, Except.ok.injEq] at h
          exact ⟨_, h.symm⟩
        | error e =>
          simp only [updateOut, hl, hu] at h
          exact Except.noConfusion h
  | str s => simp [updateOut] at h
  | seqV l => simp [updateOut] at h

/-- A successful write means the `repository` value was a string. -/
theorem updateOut_ok_str {t : OutVal} {p : List PathElem} {r : String}
    {rv : Yaml} {t' : OutVal} (h : updateOut t p r rv = .ok t') :
    ∃ s, rv = .str s := by
  induction p generalizing t t' with
  | nil =>
    cases t with
    | node es =>
      cases rv <;> simp only [updateOut] at h
      case str => exact ⟨_, rfl⟩
      all_goals exact Except.noConfusion h
    | str s => simp [updateOut] at h
    | seqV l => simp [updateOut] at h
  | cons k ks ih =>
    cases t with
    | node es =>
      cases hl : lookupOut es k with
      | some child =>
        cases hu : updateOut child ks r rv with
        | ok child2 => exact ih hu
        | error e =>
          simp only [updateOut, hl, hu] at h
          exact Except.noConfusion h
      | none =>
        cases hu : updateOut (.node []) ks r rv with
        | ok child2 => exact ih hu
        | error e =>
          simp only [updateOut, hl, hu] at h
          exact Except.noConfusion h
    | str s => simp [updateOut] at h
    | seqV l => simp [updateOut] at h

/-- A successful write puts the two produced fields at the end of its path. -/
theorem updateOut_fields {p : List PathElem} {t : OutVal} {r s : String}
    {t' : OutVal} (h : updateOut t p r (.str s) = .ok t') :
    lookupPath t' (p ++ [.key "registry"]) = some (.str r) ∧
    lookupPath t' (p ++ [.key "repository"]) = some (.str (lastSegment s)) := by
  induction p generalizing t t' with
  | nil =>
    cases t with
    | node es =>
      simp only [updateOut, Except.ok.injEq] at h
      subst h
      constructor
      · simp only [List.nil_append, lookupPath,
          lookupOut_setOut_ne _ _ _ _ (by decide :
            (PathElem.key "registry") ≠ (PathElem.key "repository")),
          lookupOut_setOut_self]
      · simp only [List.nil_append, lookupPath, lookupOut_setOut_self]
    | str s0 => simp [updateOut] at h
    | seqV l => simp [updateOut] at h
  | cons k ks ih =>
    cases t with
    | node es =>
      cases hl : lookupOut es k with
      | some child =>
        cases hu : updateOut child ks r (.str s) with
        | ok child2 =>
          simp only [updateOut, hl, hu, Except.ok.injEq] at h
          subst h
          refine ⟨?_, ?_⟩ <;>
            simp only [List.cons_append, lookupPath, lookupOut_setOut_self] <;>
            simp [ih hu]
        | error e =>
          simp only [updateOut, hl, hu] at h
          exact Except.noConfusion h
      | none =>
        cases hu : updateOut (.node []) ks r (.str s) with
        | ok child2 =>
          simp only [updateOut, hl, hu, Except.ok.injEq] at h
          subst h
          refine ⟨?_, ?_⟩ <;>
            simp only [List.cons_append, lookupPath,
              lookupOut_append_of_none _ _ _ hl] <;>
            simp [ih hu]
        | error e =>
          simp only [updateOut, hl, hu] at h
          exact Except.noConfusion h
    | str s0 => simp [updateOut] at h
    | seqV l => simp [updateOut] at h

/-- A successful write leaves a dict at every prefix of its path. -/
theorem updateOut_prefix_nodes {p : List PathElem} {t : OutVal} {r : String}
    {rv : Yaml} {t' : OutVal} (h : updateOut t p r rv = .ok t')
    {q : List PathElem} (hq : q <+: p) :
    ∃ es, lookupPath t' q = some (.node es) := by
  induction p generalizing t t' q with
  | nil =>
    rw [List.prefix_nil.mp hq]
    obtain ⟨es, rfl⟩ := updateOut_ok_node h
    exact ⟨es, rfl⟩
  | cons k ks ih =>
    cases q with
    | nil =>
      obtain ⟨es, rfl⟩ := updateOut_ok_node h
      exact ⟨es, rfl⟩
    | cons k' qs =>
      rw [List.cons_prefix_cons] at hq
      obtain ⟨rfl, hqs⟩ := hq
      cases t with
      | node es =>
        cases hl : lookupOut es k' with
        | some child =>
          cases hu : updateOut child ks r rv with
          | ok child2 =>
            simp only [updateOut, hl, hu, Except.ok.injEq] at h
            subst h
            obtain ⟨es2, hes2⟩ := ih hu hqs
            exact ⟨es2, by simp [lookupPath, lookupOut_setOut_self, hes2]⟩
          | error e =>
            simp only [updateOut, hl, hu] at h
            exact Except.noConfusion h
        | none =>
          cases hu : updateOut (.node []) ks r rv with
          | ok child2 =>
            simp only [updateOut, hl, hu, Except.ok.injEq] at h
            subst h
            obtain ⟨es2, hes2⟩ := ih hu hqs
            exact ⟨es2, by simp [lookupPath, lookupOut_append_of_none _ _ _ hl, hes2]⟩
          | error e =>
            simp only [updateOut, hl, hu] at h
            exact Except.noConfusion h
      | str s0 => simp [updateOut] at h
      | seqV l => simp [updateOut] at h

/-- A successful write preserves every string entry that does not sit below
one of its two produced fields. -/
theorem updateOut_preserve_str {p : List PathElem} {t : OutVal} {r : String}
    {rv : Yaml} {t' : OutVal} (h : updateOut t p r rv = .ok t')
    {q : List PathElem} {s0 : String} (hq : lookupPath t q = some (.str s0))
    (h1 : ¬((p ++ [PathElem.key "registry"]) <+: q))
    (h2 : ¬((p ++ [PathElem.key "repository"]) <+: q)) :
    lookupPath t' q = some (.str s0) := by
  induction p generalizing t t' q with
  | nil =>
    cases t with
    | node es =>
      cases q with
      | nil => simp [lookupPath] at hq
      | cons k qs =>
        simp only [updateOut] at h
        cases hrv : rv with
        | str s =>
          rw [hrv] at h
          simp only [Except.ok.injEq] at h
          subst h
          by_cases hk1 : k = PathElem.key "registry"
          · subst hk1
            exact absurd ⟨qs, rfl⟩ h1
          · by_cases hk2 : k = PathElem.key "repository"
            · subst hk2
              exact absurd ⟨qs, rfl⟩ h2
            · simp only [lookupPath] at hq ⊢
              rw [lookupOut_setOut_ne _ _ _ _ hk2, lookupOut_setOut_ne _ _ _ _ hk1]
              exact hq
        | int n => rw [hrv] at h; exact Except.noConfusion h
        | bool b => rw [hrv] at h; exact Except.noConfusion h
        | null => rw [hrv] at h; exact Except.noConfusion h
        | map es2 => rw [hrv] at h; exact Except.noConfusion h
        | seq l2 => rw [hrv] at h; exact Except.noConfusion h
    | str s1 => simp [updateOut] at h
    | seqV l => simp [updateOut] at h
  | cons k0 ks ih =>
    cases t with
    | node es =>
      cases q with
      | nil => simp [lookupPath] at hq
      | cons k' qs =>
        simp only [lookupPath] at hq
        cases hw : lookupOut es k' with
        | none => rw [hw] at hq; exact Option.noConfusion hq
        | some w =>
          rw [hw] at hq
          cases hl : lookupOut es k0 with
          | some child =>
            cases hu : updateOut child ks r rv with
            | ok child2 =>
              simp only [updateOut, hl, hu, Except.ok.injEq] at h
              subst h
              by_cases hkk : k' = k0
              · subst hkk
                rw [hl] at hw
                injection hw with hw
                subst hw
                have hih := ih hu hq
                  (fun hc => h1 (by
                    rw [List.cons_append, List.cons_prefix_cons]
                    exact ⟨rfl, hc⟩))
                  (fun hc => h2 (by
                    rw [List.cons_append, List.cons_prefix_cons]
                    exact ⟨rfl, hc⟩))
                simp [lookupPath, lookupOut_setOut_self, hih]
              · simp only [lookupPath, lookupOut_setOut_ne _ _ _ _ hkk, hw]
                exact hq
            | error e =>
              simp only [updateOut, hl, hu] at h
              exact Except.noConfusion h
          | none =>
            cases hu : updateOut (.node []) ks r rv with
            | ok child2 =>
              simp only [updateOut, hl, hu, Except.ok.injEq] at h
              subst h
              by_cases hkk : k' = k0
              · subst hkk
                rw [hl] at hw
                exact Option.noConfusion hw
              · simp only [lookupPath, lookupOut_append_ne _ _ _ _ hkk, hw]
                exact hq
            | error e =>
              simp only [updateOut, hl, hu] at h
              exact Except.noConfusion h
    | str s1 => simp [updateOut] at h
    | seqV l => simp [updateOut] at h

/-- A successful write preserves dict-ness at every position that is not one
of its two produced fields. -/
theorem updateOut_preserve_node {p : List PathElem} {t : OutVal} {r : String}
    {rv : Yaml} {t' : OutVal} (h : updateOut t p r rv = .ok t')
    {q : List PathElem} {es0 : List (PathElem × OutVal)}
    (hq : lookupPath t q = some (.node es0))
    (h1 : ¬((p ++ [PathElem.key "registry"]) <+: q))
    (h2 : ¬((p ++ [PathElem.key "repository"]) <+: q)) :
    ∃ es1, lookupPath t' q = some (.node es1) := by
  induction p generalizing t t' q es0 with
  | nil =>
    cases t with
    | node es =>
      cases q with
      | nil =>
        obtain ⟨es2, rfl⟩ := updateOut_ok_node h
        exact ⟨es2, rfl⟩
      | cons k qs =>
        simp only [updateOut] at h
        cases hrv : rv with
        | str s =>
          rw [hrv] at h
          simp only [Except.ok.injEq] at h
          subst h
          by_cases hk1 : k = PathElem.key "registry"
          · subst hk1
            exact absurd ⟨qs, rfl⟩ h1
          · by_cases hk2 : k = PathElem.key "repository"
            · subst hk2
              exact absurd ⟨qs, rfl⟩ h2
            · simp only [lookupPath] at hq ⊢
              rw [lookupOut_setOut_ne _ _ _ _ hk2, lookupOut_setOut_ne _ _ _ _ hk1]
              exact ⟨es0, hq⟩
        | int n => rw [hrv] at h; exact Except.noConfusion h
        | bool b => rw [hrv] at h; exact Except.noConfusion h
        | null => rw [hrv] at h; exact Except.noConfusion h
        | map es2 => rw [hrv] at h; exact Except.noConfusion h
        | seq l2 => rw [hrv] at h; exact Except.noConfusion h
    | str s1 => simp [updateOut] at h
    | seqV l => simp [updateOut] at h
  | cons k0 ks ih =>
    cases t with
    | node es =>
      cases q with
      | nil =>
        obtain ⟨es2, rfl⟩ := updateOut_ok_node h
        exact ⟨es2, rfl⟩
      | cons k' qs =>
        simp only [lookupPath] at hq
        cases hw : lookupOut es k' with
        | none => rw [hw] at hq; exact Option.noConfusion hq
        | some w =>
          rw [hw] at hq
          cases hl : lookupOut es k0 with
          | some child =>
            cases hu : updateOut child ks r rv with
            | ok child2 =>
              simp only [updateOut, hl, hu, Except.ok.injEq] at h
              subst h
              by_cases hkk : k' = k0
              · subst hkk
                rw [hl] at hw
                injection hw with hw
                subst hw
                obtain ⟨es1, hih⟩ := ih hu hq
                  (fun hc => h1 (by
                    rw [List.cons_append, List.cons_prefix_cons]
                    exact ⟨rfl, hc⟩))
                  (fun hc => h2 (by
                    rw [List.cons_append, List.cons_prefix_cons]
                    exact ⟨rfl, hc⟩))
                exact ⟨es1, by simp [lookupPath, lookupOut_setOut_self, hih]⟩
              · refine ⟨es0, ?_⟩
                simp only [lookupPath, lookupOut_setOut_ne _ _ _ _ hkk, hw]
                exact hq
            | error e =>
              simp only [updateOut, hl, hu] at h
              exact Except.noConfusion h
          | none =>
            cases hu : updateOut (.node []) ks r rv with
            | ok child2 =>
              simp only [updateOut, hl, hu, Except.ok.injEq] at h
              subst h
              by_cases hkk : k' = k0
              · subst hkk
                rw [hl] at hw
                exact Option.noConfusion hw
              · refine ⟨es0, ?_⟩
                simp only [lookupPath, lookupOut_append_ne _ _ _ _ hkk, hw]
                exact hq
            | error e =>
              simp only [updateOut, hl, hu] at h
              exact Except.noConfusion h
    | str s1 => simp [updateOut] at h
    | seqV l => simp [updateOut] at h

/-- Positions present after a successful write were present before, or were
created by it (interior of the path, or one of the two fields). -/
theorem updateOut_isSome_rev {p : List PathElem} {t : OutVal} {r : String}
    {rv : Yaml} {t' : OutVal} (h : updateOut t p r rv = .ok t')
    {q : List PathElem} (hq : (lookupPath t' q).isSome) :
    (lookupPath t q).isSome ∨ q <+: p ∨
      q = p ++ [PathElem.key "registry"] ∨ q = p ++ [PathElem.key "repository"] := by
  induction p generalizing t t' q with
  | nil =>
    cases t with
    | node es =>
      cases q with
      | nil => left; simp [lookupPath]
      | cons k qs =>
        simp only [updateOut] at h
        cases hrv : rv with
        | str s =>
          rw [hrv] at h
          simp only [Except.ok.injEq] at h
          subst h
          by_cases hk2 : k = PathElem.key "repository"
          · subst hk2
            simp only [lookupPath, lookupOut_setOut_self] at hq
            cases qs with
            | nil => right; right; right; rfl
            | cons x xs => simp [lookupPath] at hq
          · by_cases hk1 : k = PathElem.key "registry"
            · subst hk1
              simp only [lookupPath, lookupOut_setOut_ne _ _ _ _ hk2,
                lookupOut_setOut_self] at hq
              cases qs with
              | nil => right; right; left; rfl
              | cons x xs => simp [lookupPath] at hq
            · left
              simp only [lookupPath, lookupOut_setOut_ne _ _ _ _ hk2,
                lookupOut_setOut_ne _ _ _ _ hk1] at hq
              simpa [lookupPath] using hq
        | int n => rw [hrv] at h; exact Except.noConfusion h
        | bool b => rw [hrv] at h; exact Except.noConfusion h
        | null => rw [hrv] at h; exact Except.noConfusion h
        | map es2 => rw [hrv] at h; exact Except.noConfusion h
        | seq l2 => rw [hrv] at h; exact Except.noConfusion h
    | str s1 => simp [updateOut] at h
    | seqV l => simp [updateOut] at h
  | cons k0 ks ih =>
    cases t with
    | node es =>
      cases q with
      | nil => left; simp [lookupPath]
      | cons k' qs =>
        cases hl : lookupOut es k0 with
        | some child =>
          cases hu : updateOut child ks r rv with
          | ok child2 =>
            simp only [updateOut, hl, hu, Except.ok.injEq] at h
            subst h
            by_cases hkk : k' = k0
            · subst hkk
              simp only [lookupPath, lookupOut_setOut_self] at hq
              rcases ih hu hq with hin | hpre | hreg | hrepo
              · left
                simp [lookupPath, hl, hin]
              · right; left
                rw [List.cons_prefix_cons]
                exact ⟨rfl, hpre⟩
              · right; right; left
                rw [hreg, List.cons_append]
              · right; right; right
                rw [hrepo, List.cons_append]
            · left
              simp only [lookupPath, lookupOut_setOut_ne _ _ _ _ hkk] at hq
              simpa [lookupPath] using hq
          | error e =>
            simp only [updateOut, hl, hu] at h
            exact Except.noConfusion h
        | none =>
          cases hu : updateOut (.node []) ks r rv with
          | ok child2 =>
            simp only [updateOut, hl, hu, Except.ok.injEq] at h
            subst h
            by_cases hkk : k' = k0
            · subst hkk
              simp only [lookupPath, lookupOut_append_of_none _ _ _ hl] at hq
              rcases ih hu hq with hin | hpre | hreg | hrepo
              · cases qs with
                | nil =>
                  right; left
                  rw [List.cons_prefix_cons]
                  exact ⟨rfl, List.nil_prefix⟩
                | cons x xs => simp [lookupPath, lookupOut] at hin
              · right; left
                rw [List.cons_prefix_cons]
                exact ⟨rfl, hpre⟩
              · right; right; left
                rw [hreg, List.cons_append]
              · right; right; right
                rw [hrepo, List.cons_append]
            · left
              simp only [lookupPath, lookupOut_append_ne _ _ _ _ hkk] at hq
              simpa [lookupPath] using hq
          | error e =>
            simp only [updateOut, hl, hu] at h
            exact Except.noConfusion h
    | str s1 => simp [updateOut] at h
    | seqV l => simp [updateOut] at h

/-- A matched block whose `repository` value is not a string always raises:
either the `AttributeError` of `.split('/')` or an earlier descent failure. -/
theorem updateOut_nonstr_error {p : List PathElem} {t : OutVal} {r : String}
    {rv : Yaml} (hns : ∀ s, rv ≠ .str s) :
    ∃ e, updateOut t p r rv = .error e := by
  induction p generalizing t with
  | nil =>
    cases t with
    | node es =>
      cases rv with
      | str s => exact absurd rfl (hns s)
      | int n => exact ⟨_, rfl⟩
      | bool b => exact ⟨_, rfl⟩
      | null => exact ⟨_, rfl⟩
      | map es2 => exact ⟨_, rfl⟩
      | seq l2 => exact ⟨_, rfl⟩
    | str s1 => exact ⟨_, rfl⟩
    | seqV l => exact ⟨_, rfl⟩
  | cons k0 ks ih =>
    cases t with
    | node es =>
      cases hl : lookupOut es k0 with
      | some child =>
        obtain ⟨e, he⟩ := @ih child
        exact ⟨e, by simp [updateOut, hl, he]⟩
      | none =>
        obtain ⟨e, he⟩ := @ih (.node [])
        exact ⟨e, by simp [updateOut, hl, he]⟩
    | str s1 => exact ⟨_, rfl⟩
    | seqV l => exact ⟨_, rfl⟩

/-- With a string `repository` value, the `.split('/')` error cannot occur. -/
theorem updateOut_str_no_attrSplit {p : List PathElem} {t : OutVal}
    {r s : String} : updateOut t p r (.str s) ≠ .error .attrSplit := by
  induction p generalizing t with
  | nil =>
    cases t with
    | node es => simp [updateOut]
    | str s1 => simp [updateOut]
    | seqV l => simp [updateOut]
  | cons k0 ks ih =>
    cases t with
    | node es =>
      cases hl : lookupOut es k0 with
      | some child =>
        cases hu : updateOut child ks r (.str s) with
        | ok child2 => simp [updateOut, hl, hu]
        | error e =>
          simp only [updateOut, hl, hu]
          intro hc
          injection hc with hc
          exact ih (hc ▸ hu)
      | none =>
        cases hu : updateOut (.node []) ks r (.str s) with
        | ok child2 => simp [updateOut, hl, hu]
        | error e =>
          simp only [updateOut, hl, hu]
          intro hc
          injection hc with hc
          exact ih (hc ▸ hu)
    | str s1 => simp [updateOut]
    | seqV l => simp [updateOut]

/-- Induction over `OutVal` with membership hypotheses for the nested lists. -/
theorem outRecMem {motive : OutVal → Prop}
    (hstr : ∀ s, motive (.str s))
    (hnode : ∀ es, (∀ kv ∈ es, motive kv.2) → motive (.node es))
    (hseq : ∀ l, (∀ v ∈ l, motive v) → motive (.seqV l)) :
    ∀ t, motive t
  | .str s => hstr s
  | .node es => hnode es (fun kv hkv => outRecMem hstr hnode hseq kv.2)
  | .seqV l => hseq l (fun v hv => outRecMem hstr hnode hseq v)
termination_by t => sizeOf t
decreasing_by
  · have h1 := List.sizeOf_lt_of_mem hkv
    obtain ⟨k, v⟩ := kv
    simp only [Prod.mk.sizeOf_spec] at h1
    simp only [OutVal.node.sizeOf_spec]
    omega
  · have h1 := List.sizeOf_lt_of_mem hv
    simp only [OutVal.seqV.sizeOf_spec]
    omega

theorem entriesOkay_lookup {es : List (PathElem × OutVal)} {k : PathElem}
    {v : OutVal} (hok : entriesOkay es = true) (hl : lookupOut es k = some v) :
    entryOkay (k, v) = true := by
  induction es with
  | nil => simp [lookupOut] at hl
  | cons e rest ih =>
    obtain ⟨k0, v0⟩ := e
    simp only [entriesOkay, Bool.and_eq_true] at hok
    by_cases hk : k0 = k
    · subst hk
      simp only [lookupOut, if_pos rfl] at hl
      injection hl with hl
      subst hl
      exact hok.1
    · simp only [lookupOut, if_neg hk] at hl
      exact ih hok.2 hl

theorem entriesOkay_setOut {es : List (PathElem × OutVal)} {k : PathElem}
    {v : OutVal} (hok : entriesOkay es = true) (hv : entryOkay (k, v) = true) :
    entriesOkay (setOut es k v) = true := by
  induction es with
  | nil => simp [setOut, entriesOkay, hv]
  | cons e rest ih =>
    obtain ⟨k0, v0⟩ := e
    simp only [entriesOkay, Bool.and_eq_true] at hok
    by_cases hk : k0 = k
    · subst hk
      simp [setOut, entriesOkay, hv, hok.2]
    · simp [setOut, if_neg hk, entriesOkay, hok.1, ih hok.2]

theorem entriesOkay_append {es : List (PathElem × OutVal)}
    {e : PathElem × OutVal} (hok : entriesOkay es = true)
    (hv : entryOkay e = true) : entriesOkay (es ++ [e]) = true := by
  induction es with
  | nil => simp [entriesOkay, hv]
  | cons e0 rest ih =>
    simp only [entriesOkay, Bool.and_eq_true] at hok
    simp [entriesOkay, hok.1, ih hok.2]

/-- A successful write keeps the output dict sound. -/
theorem updateOut_preserve_good {p : List PathElem} {t : OutVal} {r : String}
    {rv : Yaml} {t' : OutVal} (h : updateOut t p r rv = .ok t')
    (hg : goodOut t = true) : goodOut t' = true := by
  induction p generalizing t t' with
  | nil =>
    cases t with
    | node es =>
      cases rv <;> simp only [updateOut, Except.ok.injEq] at h
      case str s =>
        subst h
        simp only [goodOut] at hg ⊢
        exact entriesOkay_setOut (entriesOkay_setOut hg (by simp [entryOkay]))
          (by simp [entryOkay])
      all_goals exact Except.noConfusion h
    | str s1 => simp [updateOut] at h
    | seqV l => simp [updateOut] at h
  | cons k0 ks ih =>
    cases t with
    | node es =>
      simp only [goodOut] at hg
      cases hl : lookupOut es k0 with
      | some child =>
        cases hu : updateOut child ks r rv with
        | ok child2 =>
          simp only [updateOut, hl, hu, Except.ok.injEq] at h
          subst h
          have hce := entriesOkay_lookup hg hl
          have hchild : goodOut child = true := by
            cases child with
            | node es2 => simpa [entryOkay] using hce
            | str s2 =>
              cases ks with
              | nil => simp [updateOut] at hu
              | cons x xs => simp [updateOut] at hu
            | seqV l2 => simp [entryOkay] at hce
          have hgood2 := ih hu hchild
          obtain ⟨es2, rfl⟩ := updateOut_ok_node hu
          simp only [goodOut] at hgood2 ⊢
          exact entriesOkay_setOut hg (by simpa [entryOkay] using hgood2)
        | error e =>
          simp only [updateOut, hl, hu] at h
          exact Except.noConfusion h
      | none =>
        cases hu : updateOut (.node []) ks r rv with
        | ok child2 =>
          simp only [updateOut, hl, hu, Except.ok.injEq] at h
          subst h
          have hgood2 := ih hu (by simp [goodOut, entriesOkay])
          obtain ⟨es2, rfl⟩ := updateOut_ok_node hu
          simp only [goodOut] at hgood2 ⊢
          exact entriesOkay_append hg (by simpa [entryOkay] using hgood2)
        | error e =>
          simp only [updateOut, hl, hu] at h
          exact Except.noConfusion h
    | str s1 => simp [updateOut] at h
    | seqV l => simp [updateOut] at h

/-- Sound dicts contain no Python list anywhere. -/
theorem noSeq_of_good : ∀ t : OutVal, goodOut t = true → noSeq t = true := by
  intro t
  induction t using outRecMem with
  | hstr s => simp [goodOut]
  | hseq l ih => simp [goodOut]
  | hnode es ih =>
    intro hg
    simp only [goodOut] at hg
    simp only [noSeq]
    have step : ∀ (l : List (PathElem × OutVal)),
        (∀ kv ∈ l, goodOut kv.2 = true → noSeq kv.2 = true) →
        entriesOkay l = true → noSeqEntries l = true := by
      intro l
      induction l with
      | nil => intro _ _; simp [noSeqEntries]
      | cons e rest ihl =>
        intro hmem hok
        obtain ⟨k, v⟩ := e
        simp only [entriesOkay, Bool.and_eq_true] at hok
        have hv : noSeq v = true := by
          cases v with
          | str s => simp [noSeq]
          | node es2 =>
            exact hmem (k, .node es2) (by simp)
              (by simpa [goodOut, entryOkay] using hok.1)
          | seqV l2 => simp [entryOkay] at hok
        simp only [noSeqEntries, Bool.and_eq_true]
        exact ⟨hv, ihl (fun kv hkv => hmem kv (List.mem_cons_of_mem _ hkv)) hok.2⟩
    exact step es ih hg

/-! ## Lemmas about the whole write sequence -/

theorem runWrites_ok_node {preg : String} {ws : List (List PathElem × Yaml)}
    {es : List (PathElem × OutVal)} {out : OutVal}
    (h : runWrites preg ws (.node es) = .ok out) :
    ∃ es2, out = .node es2 := by
  induction ws generalizing es with
  | nil =>
    simp only [runWrites, Except.ok.injEq] at h
    exact ⟨es, h.symm⟩
  | cons w rest ih =>
    obtain ⟨p0, rv0⟩ := w
    cases hu : updateOut (.node es) p0 preg rv0 with
    | ok acc2 =>
      simp only [runWrites, hu] at h
      obtain ⟨es2, rfl⟩ := updateOut_ok_node hu
      exact ih h
    | error e =>
      simp only [runWrites, hu] at h
      exact Except.noConfusion h

theorem runWrites_ok_str {preg : String} {ws : List (List PathElem × Yaml)}
    {acc out : OutVal} (h : runWrites preg ws acc = .ok out) :
    ∀ pv ∈ ws, ∃ s, pv.2 = Yaml.str s := by
  induction ws generalizing acc with
  | nil => intro pv hpv; simp at hpv
  | cons w rest ih =>
    obtain ⟨p0, rv0⟩ := w
    cases hu : updateOut acc p0 preg rv0 with
    | ok acc2 =>
      simp only [runWrites, hu] at h
      intro pv hpv
      rcases List.mem_cons.mp hpv with rfl | hpv2
      · exact updateOut_ok_str hu
      · exact ih h pv hpv2
    | error e =>
      simp only [runWrites, hu] at h
      exact Except.noConfusion h

/-- A matched block with a non-string `repository` value makes the whole
write sequence raise. -/
theorem runWrites_bad_error {preg : String} {ws : List (List PathElem × Yaml)}
    {acc : OutVal} (hbad : ∃ pv ∈ ws, ∀ s, pv.2 ≠ Yaml.str s) :
    ∃ e, runWrites preg ws acc = .error e := by
  cases h : runWrites preg ws acc with
  | ok out =>
    obtain ⟨pv, hpv, hns⟩ := hbad
    obtain ⟨s, hs⟩ := runWrites_ok_str h pv hpv
    exact absurd hs (hns s)
  | error e => exact ⟨e, rfl⟩

/-- With every `repository` value a string, the `.split('/')` error branch
is unreachable throughout the write sequence. -/
theorem runWrites_no_attrSplit {preg : String} {ws : List (List PathElem × Yaml)}
    {acc : OutVal} (hstr : ∀ pv ∈ ws, ∃ s, pv.2 = Yaml.str s) :
    runWrites preg ws acc ≠ .error .attrSplit := by
  induction ws generalizing acc with
  | nil => simp [runWrites]
  | cons w rest ih =>
    obtain ⟨p0, rv0⟩ := w
    obtain ⟨s, hs⟩ := hstr (p0, rv0) (by simp)
    subst hs
    cases hu : updateOut acc p0 preg (.str s) with
    | ok acc2 =>
      simp only [runWrites, hu]
      exact ih (fun pv hpv => hstr pv (List.mem_cons_of_mem _ hpv))
    | error e =>
      simp only [runWrites, hu]
      intro hc
      injection hc with hc
      exact updateOut_str_no_attrSplit (hc ▸ hu)

theorem runWrites_preserve_str {preg : String} {ws : List (List PathElem × Yaml)}
    {acc out : OutVal} (h : runWrites preg ws acc = .ok out)
    {q : List PathElem} {s0 : String} (hq : lookupPath acc q = some (.str s0))
    (hcond : ∀ pv ∈ ws, ¬((pv.1 ++ [PathElem.key "registry"]) <+: q) ∧
      ¬((pv.1 ++ [PathElem.key "repository"]) <+: q)) :
    lookupPath out q = some (.str s0) := by
  induction ws generalizing acc with
  | nil =>
    simp only [runWrites, Except.ok.injEq] at h
    exact h ▸ hq
  | cons w rest ih =>
    obtain ⟨p0, rv0⟩ := w
    cases hu : updateOut acc p0 preg rv0 with
    | ok acc2 =>
      simp only [runWrites, hu] at h
      have hc0 := hcond (p0, rv0) (by simp)
      have hq2 := updateOut_preserve_str hu hq hc0.1 hc0.2
      exact ih h hq2 (fun pv hpv => hcond pv (List.mem_cons_of_mem _ hpv))
    | error e =>
      simp only [runWrites, hu] at h
      exact Except.noConfusion h

theorem runWrites_preserve_node {preg : String} {ws : List (List PathElem × Yaml)}
    {acc out : OutVal} (h : runWrites preg ws acc = .ok out)
    {q : List PathElem} {es0 : List (PathElem × OutVal)}
    (hq : lookupPath acc q = some (.node es0))
    (hcond : ∀ pv ∈ ws, ¬((pv.1 ++ [PathElem.key "registry"]) <+: q) ∧
      ¬((pv.1 ++ [PathElem.key "repository"]) <+: q)) :
    ∃ es1, lookupPath out q = some (.node es1) := by
  induction ws generalizing acc es0 with
  | nil =>
    simp only [runWrites, Except.ok.injEq] at h
    exact ⟨es0, h ▸ hq⟩
  | cons w rest ih =>
    obtain ⟨p0, rv0⟩ := w
    cases hu : updateOut acc p0 preg rv0 with
    | ok acc2 =>
      simp only [runWrites, hu] at h
      have hc0 := hcond (p0, rv0) (by simp)
      obtain ⟨es1, hq2⟩ := updateOut_preserve_node hu hq hc0.1 hc0.2
      exact ih h hq2 (fun pv hpv => hcond pv (List.mem_cons_of_mem _ hpv))
    | error e =>
      simp only [runWrites, hu] at h
      exact Except.noConfusion h

theorem runWrites_preserve_good {preg : String} {ws : List (List PathElem × Yaml)}
    {acc out : OutVal} (h : runWrites preg ws acc = .ok out)
    (hg : goodOut acc = true) : goodOut out = true := by
  induction ws generalizing acc with
  | nil =>
    simp only [runWrites, Except.ok.injEq] at h
    exact h ▸ hg
  | cons w rest ih =>
    obtain ⟨p0, rv0⟩ := w
    cases hu : updateOut acc p0 preg rv0 with
    | ok acc2 =>
      simp only [runWrites, hu] at h
      exact ih h (updateOut_preserve_good hu hg)
    | error e =>
      simp only [runWrites, hu] at h
      exact Except.noConfusion h

theorem runWrites_isSome_rev {preg : String} {ws : List (List PathElem × Yaml)}
    {acc out : OutVal} (h : runWrites preg ws acc = .ok out)
    {q : List PathElem} (hq : (lookupPath out q).isSome) :
    (lookupPath acc q).isSome ∨ ∃ pv ∈ ws, q <+: pv.1 ∨
      q = pv.1 ++ [PathElem.key "registry"] ∨
      q = pv.1 ++ [PathElem.key "repository"] := by
  induction ws generalizing acc with
  | nil =>
    simp only [runWrites, Except.ok.injEq] at h
    exact Or.inl (h ▸ hq)
  | cons w rest ih =>
    obtain ⟨p0, rv0⟩ := w
    cases hu : updateOut acc p0 preg rv0 with
    | ok acc2 =>
      simp only [runWrites, hu] at h
      rcases ih h with hin | ⟨pv, hpv, hr⟩
      · rcases updateOut_isSome_rev hu hin with hin2 | hpre | hreg | hrepo
        · exact Or.inl hin2
        · exact Or.inr ⟨(p0, rv0), by simp, Or.inl hpre⟩
        · exact Or.inr ⟨(p0, rv0), by simp, Or.inr (Or.inl hreg)⟩
        · exact Or.inr ⟨(p0, rv0), by simp, Or.inr (Or.inr hrepo)⟩
      · exact Or.inr ⟨pv, List.mem_cons_of_mem _ hpv, hr⟩
    | error e =>
      simp only [runWrites, hu] at h
      exact Except.noConfusion h

/-- From pairwise "no later path is a prefix of an earlier one": no later
write position reaches into an earlier write's produced fields. -/
theorem later_write_not_into_field {p pj : List PathElem} {x y : PathElem}
    (hx : x = PathElem.key "registry" ∨ x = PathElem.key "repository")
    (hy : y = PathElem.key "registry" ∨ y = PathElem.key "repository")
    (hnp : ¬(pj <+: p)) : ¬((pj ++ [y]) <+: (p ++ [x])) := by
  intro hc
  rcases prefix_snoc_cases hc with hc2 | hc2
  · exact hnp (((List.prefix_append pj [y]).trans hc2).trans (by rfl))
  · have := (List.append_inj' hc2 rfl).1
    exact hnp (this ▸ List.prefix_refl p)

/-- Every matched block with pairwise-compatible later writes ends up with
its two produced fields in the final output. -/
theorem runWrites_fields {preg : String} {ws : List (List PathElem × Yaml)}
    {acc out : OutVal} (h : runWrites preg ws acc = .ok out)
    (hpw : ws.Pairwise (fun a b => ¬(b.1 <+: a.1)))
    {p : List PathElem} {s : String} (hmem : (p, Yaml.str s) ∈ ws) :
    lookupPath out (p ++ [PathElem.key "registry"]) = some (.str preg) ∧
    lookupPath out (p ++ [PathElem.key "repository"]) = some (.str (lastSegment s)) := by
  induction ws generalizing acc with
  | nil => simp at hmem
  | cons w rest ih =>
    obtain ⟨p0, rv0⟩ := w
    cases hu : updateOut acc p0 preg rv0 with
    | ok acc2 =>
      simp only [runWrites, hu] at h
      rcases List.mem_cons.mp hmem with heq | hmem2
      · injection heq with heq1 heq2
        subst heq1
        subst heq2
        have hf := updateOut_fields hu
        have hlater : ∀ pv ∈ rest, ¬(pv.1 <+: p) :=
          fun pv hpv => (List.pairwise_cons.mp hpw).1 pv hpv
        constructor
        · exact runWrites_preserve_str h hf.1 (fun pv hpv =>
            ⟨later_write_not_into_field (Or.inl rfl) (Or.inl rfl) (hlater pv hpv),
             later_write_not_into_field (Or.inl rfl) (Or.inr rfl) (hlater pv hpv)⟩)
        · exact runWrites_preserve_str h hf.2 (fun pv hpv =>
            ⟨later_write_not_into_field (Or.inr rfl) (Or.inl rfl) (hlater pv hpv),
             later_write_not_into_field (Or.inr rfl) (Or.inr rfl) (hlater pv hpv)⟩)
      · exact ih h (List.pairwise_cons.mp hpw).2 hmem2
    | error e =>
      simp only [runWrites, hu] at h
      exact Except.noConfusion h

/-- Every prefix of a matched block's path holds a dict in the final output. -/
theorem runWrites_prefix_nodes {preg : String} {ws : List (List PathElem × Yaml)}
    {acc out : OutVal} (h : runWrites preg ws acc = .ok out)
    (hpw : ws.Pairwise (fun a b => ¬(b.1 <+: a.1)))
    {p : List PathElem} {rv : Yaml} (hmem : (p, rv) ∈ ws)
    {q : List PathElem} (hq : q <+: p) :
    ∃ es1, lookupPath out q = some (.node es1) := by
  induction ws generalizing acc with
  | nil => simp at hmem
  | cons w rest ih =>
    obtain ⟨p0, rv0⟩ := w
    cases hu : updateOut acc p0 preg rv0 with
    | ok acc2 =>
      simp only [runWrites, hu] at h
      rcases List.mem_cons.mp hmem with heq | hmem2
      · injection heq with heq1 heq2
        subst heq1
        obtain ⟨es0, hn⟩ := updateOut_prefix_nodes hu hq
        have hlater : ∀ pv ∈ rest, ¬(pv.1 <+: p) :=
          fun pv hpv => (List.pairwise_cons.mp hpw).1 pv hpv
        refine runWrites_preserve_node h hn (fun pv hpv => ⟨?_, ?_⟩) <;>
          intro hc <;>
          exact hlater pv hpv
            (((List.prefix_append pv.1 _).trans hc).trans hq)
      · exact ih h (List.pairwise_cons.mp hpw).2 hmem2
    | error e =>
      simp only [runWrites, hu] at h
      exact Except.noConfusion h

/-- Only the root position exists in the empty output dict. -/
theorem lookupPath_empty_node {q : List PathElem}
    (h : (lookupPath (.node []) q).isSome) : q = [] := by
  cases q with
  | nil => rfl
  | cons k qs => simp [lookupPath, lookupOut] at h

theorem lookupY_mem {es : List (String × Yaml)} {k : String} {v : Yaml}
    (h : lookupY es k = some v) : (k, v) ∈ es := by
  induction es with
  | nil => simp [lookupY] at h
  | cons e rest ih =>
    obtain ⟨k0, v0⟩ := e
    by_cases hk : k0 = k
    · subst hk
      simp only [lookupY, if_pos rfl] at h
      injection h with h
      subst h
      simp
    · simp only [lookupY, if_neg hk] at h
      exact List.mem_cons_of_mem _ (ih h)

/-- With duplicate-free keys, membership determines the lookup. -/
theorem mem_lookupY {es : List (String × Yaml)} {k : String} {v : Yaml}
    (hnd : nodupKeys (es.map Prod.fst) = true) (h : (k, v) ∈ es) :
    lookupY es k = some v := by
  induction es with
  | nil => simp at h
  | cons e rest ih =>
    obtain ⟨k0, v0⟩ := e
    simp only [List.map_cons, nodupKeys, Bool.and_eq_true, Bool.not_eq_true'] at hnd
    rcases List.mem_cons.mp h with heq | hmem
    · injection heq with h1 h2
      subst h1; subst h2
      simp [lookupY]
    · have hk : k0 ≠ k := by
        intro hc
        subst hc
        have hm : k0 ∈ rest.map Prod.fst := List.mem_map_of_mem Prod.fst hmem
        have h2 : (rest.map Prod.fst).contains k0 = true := by
          simpa [List.contains] using List.elem_eq_true_of_mem hm
        rw [hnd.1] at h2
        exact Bool.noConfusion h2
      simp only [lookupY, if_neg hk]
      exact ih hnd.2 hmem

/-- Everything collected under a subtree extends the base path. -/
theorem collectM_extends :
    ∀ d : Yaml, ∀ (path : List PathElem) (pv : List PathElem × Yaml),
      pv ∈ collectM d path → path <+: pv.1 := by
  intro d
  induction d using yamlRecMem with
  | hstr s => intro path pv h; simp [collectM] at h
  | hint n => intro path pv h; simp [collectM] at h
  | hbool b => intro path pv h; simp [collectM] at h
  | hnull => intro path pv h; simp [collectM] at h
  | hmap es ih =>
    intro path pv h
    simp only [collectM] at h
    rcases List.mem_append.mp h with h1 | h2
    · rcases hm : lookupY es "repository" with _ | rv
      · rw [hm] at h1; simp at h1
      · rcases ht : lookupY es "tag" with _ | tv
        · rw [hm, ht] at h1; simp at h1
        · rw [hm, ht] at h1
          simp only [List.mem_singleton] at h1
          rw [h1]
    · have step : ∀ l : List (String × Yaml),
          (∀ kv ∈ l, ∀ (path2 : List PathElem) (pv2 : List PathElem × Yaml),
            pv2 ∈ collectM kv.2 path2 → path2 <+: pv2.1) →
          ∀ pv2 ∈ collectEntries path l, path <+: pv2.1 := by
        intro l
        induction l with
        | nil => intro _ pv2 h2; simp [collectEntries] at h2
        | cons e rest ihl =>
          intro hmem pv2 h2
          obtain ⟨k, v⟩ := e
          simp only [collectEntries] at h2
          rcases List.mem_append.mp h2 with h3 | h3
          · have := hmem (k, v) (by simp) (path ++ [.key k]) pv2 h3
            exact (List.prefix_append path [PathElem.key k]).trans this
          · exact ihl (fun kv hkv => hmem kv (List.mem_cons_of_mem _ hkv)) pv2 h3
      exact step es ih pv h2
  | hseq l ih =>
    intro path pv h
    simp only [collectM] at h
    have step : ∀ (items : List Yaml) (i : Nat),
        (∀ v ∈ items, ∀ (path2 : List PathElem) (pv2 : List PathElem × Yaml),
          pv2 ∈ collectM v path2 → path2 <+: pv2.1) →
        ∀ pv2 ∈ collectItems path i items, path <+: pv2.1 := by
      intro items
      induction items with
      | nil => intro i _ pv2 h2; simp [collectItems] at h2
      | cons v rest ihl =>
        intro i hmem pv2 h2
        simp only [collectItems] at h2
        rcases List.mem_append.mp h2 with h3 | h3
        · have := hmem v (by simp) (path ++ [.idx i]) pv2 h3
          exact (List.prefix_append path [PathElem.idx i]).trans this
        · exact ihl (i + 1) (fun v2 hv2 => hmem v2 (List.mem_cons_of_mem _ hv2)) pv2 h3
    exact step l 0 ih pv h

/-- Every element of a `collectEntries` block comes from one of the entries
and extends that entry's one-step path. -/
theorem collectEntries_shape {path : List PathElem} {l : List (String × Yaml)}
    {b : List PathElem × Yaml} (hb : b ∈ collectEntries path l) :
    ∃ kv ∈ l, (path ++ [PathElem.key kv.1]) <+: b.1 := by
  induction l with
  | nil => simp [collectEntries] at hb
  | cons e rest ih =>
    obtain ⟨k, v⟩ := e
    simp only [collectEntries] at hb
    rcases List.mem_append.mp hb with h3 | h3
    · exact ⟨(k, v), by simp, collectM_extends v _ b h3⟩
    · obtain ⟨kv, hkv, hp⟩ := ih h3
      exact ⟨kv, List.mem_cons_of_mem _ hkv, hp⟩

/-- Every element of a `collectItems` block comes from an index at or after
the starting index and extends that one-step path. -/
theorem collectItems_shape {path : List PathElem} {l : List Yaml} {i : Nat}
    {b : List PathElem × Yaml} (hb : b ∈ collectItems path i l) :
    ∃ j, i ≤ j ∧ (path ++ [PathElem.idx j]) <+: b.1 := by
  induction l generalizing i with
  | nil => simp [collectItems] at hb
  | cons v rest ih =>
    simp only [collectItems] at hb
    rcases List.mem_append.mp hb with h3 | h3
    · exact ⟨i, le_refl _, collectM_extends v _ b h3⟩
    · obtain ⟨j, hj, hp⟩ := ih h3
      exact ⟨j, by omega, hp⟩

/-- In a well-formed document, no later collected path is a prefix of an
earlier one (the walk is pre-order: ancestors match before descendants, and
sibling subtrees are key- or index-disjoint). -/
theorem collectM_pairwise :
    ∀ d : Yaml, wfY d = true → ∀ path : List PathElem,
      (collectM d path).Pairwise (fun a b => ¬(b.1 <+: a.1)) := by
  intro d
  induction d using yamlRecMem with
  | hstr s => intro _ path; simp [collectM]
  | hint n => intro _ path; simp [collectM]
  | hbool b => intro _ path; simp [collectM]
  | hnull => intro _ path; simp [collectM]
  | hmap es ih =>
    intro hwf path
    simp only [wfY, Bool.and_eq_true] at hwf
    obtain ⟨hnd, hwfe⟩ := hwf
    simp only [collectM]
    rw [List.pairwise_append]
    refine ⟨?_, ?_, ?_⟩
    · rcases hm : lookupY es "repository" with _ | rv <;>
        rcases ht : lookupY es "tag" with _ | tv <;> simp
    · -- pairwise within the recursive part
      have step : ∀ l : List (String × Yaml),
          nodupKeys (l.map Prod.fst) = true → wfEntries l = true →
          (∀ kv ∈ l, wfY kv.2 = true → ∀ path2,
            (collectM kv.2 path2).Pairwise (fun a b => ¬(b.1 <+: a.1))) →
          (collectEntries path l).Pairwise (fun a b => ¬(b.1 <+: a.1)) := by
        intro l
        induction l with
        | nil => intro _ _ _; simp [collectEntries]
        | cons e rest ihl =>
          intro hnd2 hwfe2 hpw
          obtain ⟨k, v⟩ := e
          simp only [List.map_cons, nodupKeys, Bool.and_eq_true,
            Bool.not_eq_true'] at hnd2
          simp only [wfEntries, Bool.and_eq_true] at hwfe2
          simp only [collectEntries]
          rw [List.pairwise_append]
          refine ⟨hpw (k, v) (by simp) hwfe2.1 _, ?_, ?_⟩
          · exact ihl hnd2.2 hwfe2.2
              (fun kv hkv => hpw kv (List.mem_cons_of_mem _ hkv))
          · intro a ha b hb
            have hae := collectM_extends v (path ++ [.key k]) a ha
            obtain ⟨kv, hkv, hbp⟩ := collectEntries_shape hb
            have hne : PathElem.key k ≠ PathElem.key kv.1 := by
              intro hc
              injection hc with hc
              have hm : kv.1 ∈ rest.map Prod.fst := List.mem_map_of_mem Prod.fst hkv
              rw [← hc] at hm
              have h2 : (rest.map Prod.fst).contains k = true := by
                simpa [List.contains] using List.elem_eq_true_of_mem hm
              rw [hnd2.1] at h2
              exact Bool.noConfusion h2
            exact fun hc => not_prefix_of_ne_elem hne hae hbp hc
      exact step es hnd hwfe (fun kv hkv hkv2 => ih kv hkv hkv2)
    · -- the head write's path is a prefix of every later path, not vice versa
      intro a ha b hb
      rcases hm : lookupY es "repository" with _ | rv
      · rw [hm] at ha; simp at ha
      · rcases ht : lookupY es "tag" with _ | tv
        · rw [hm, ht] at ha; simp at ha
        · rw [hm, ht] at ha
          simp only [List.mem_singleton] at ha
          obtain ⟨kv, _, hbp⟩ := collectEntries_shape hb
          intro hc
          rw [ha] at hc
          have hlen := (hbp.trans hc).length_le
          simp at hlen
  | hseq l ih =>
    intro hwf path
    simp only [wfY] at hwf
    simp only [collectM]
    have step : ∀ (items : List Yaml) (i : Nat),
        wfItems items = true →
        (∀ v ∈ items, wfY v = true → ∀ path2,
          (collectM v path2).Pairwise (fun a b => ¬(b.1 <+: a.1))) →
        (collectItems path i items).Pairwise (fun a b => ¬(b.1 <+: a.1)) := by
      intro items
      induction items with
      | nil => intro i _ _; simp [collectItems]
      | cons v rest ihl =>
        intro i hwfl hpw
        simp only [wfItems, Bool.and_eq_true] at hwfl
        simp only [collectItems]
        rw [List.pairwise_append]
        refine ⟨hpw v (by simp) hwfl.1 _, ?_, ?_⟩
        · exact ihl (i + 1) hwfl.2 (fun v2 hv2 => hpw v2 (List.mem_cons_of_mem _ hv2))
        · intro a ha b hb
          have hae := collectM_extends v (path ++ [.idx i]) a ha
          obtain ⟨j, hj, hbp⟩ := collectItems_shape hb
          have hne : PathElem.idx i ≠ PathElem.idx j := by
            intro hc
            injection hc with hc
            omega
          exact fun hc => not_prefix_of_ne_elem hne hae hbp hc
    exact step l 0 hwf (fun v hv hv2 => ih v hv hv2)


/-- Decompose a `collectEntries` block element into its source entry. -/
theorem collectEntries_decomp {path : List PathElem} {l : List (String × Yaml)}
    {b : List PathElem × Yaml} (hb : b ∈ collectEntries path l) :
    ∃ kv ∈ l, b ∈ collectM kv.2 (path ++ [PathElem.key kv.1]) := by
  induction l with
  | nil => simp [collectEntries] at hb
  | cons e rest ih =>
    obtain ⟨k, v⟩ := e
    simp only [collectEntries] at hb
    rcases List.mem_append.mp hb with h3 | h3
    · exact ⟨(k, v), by simp, h3⟩
    · obtain ⟨kv, hkv, hp⟩ := ih h3
      exact ⟨kv, List.mem_cons_of_mem _ hkv, hp⟩

/-- Decompose a `collectItems` block element into its source item. -/
theorem collectItems_decomp {path : List PathElem} {l : List Yaml} {i : Nat}
    {b : List PathElem × Yaml} (hb : b ∈ collectItems path i l) :
    ∃ (n : Nat) (v : Yaml), l.get? n = some v ∧
      b ∈ collectM v (path ++ [PathElem.idx (i + n)]) := by
  induction l generalizing i with
  | nil => simp [collectItems] at hb
  | cons v rest ih =>
    simp only [collectItems] at hb
    rcases List.mem_append.mp hb with h3 | h3
    · exact ⟨0, v, rfl, by simpa using h3⟩
    · obtain ⟨n, v2, hget, hp⟩ := ih h3
      refine ⟨n + 1, v2, by simpa using hget, ?_⟩
      have : i + 1 + n = i + (n + 1) := by omega
      rwa [this] at hp

/-- Lift membership in a subtree's collection into the entries block. -/
theorem collectEntries_of_mem {path : List PathElem} {l : List (String × Yaml)}
    {k : String} {v : Yaml} (hkv : (k, v) ∈ l)
    {x : List PathElem × Yaml} (hx : x ∈ collectM v (path ++ [PathElem.key k])) :
    x ∈ collectEntries path l := by
  induction l with
  | nil => simp at hkv
  | cons e rest ih =>
    obtain ⟨k0, v0⟩ := e
    simp only [collectEntries]
    rcases List.mem_cons.mp hkv with heq | hmem
    · injection heq with h1 h2
      subst h1; subst h2
      exact List.mem_append_left _ hx
    · exact List.mem_append_right _ (ih hmem)

/-- Lift membership in an item's collection into the items block. -/
theorem collectItems_of_get {path : List PathElem} {l : List Yaml}
    {i : Nat} {v : Yaml} (hget : l.get? i = some v)
    {x : List PathElem × Yaml} :
    ∀ i0, x ∈ collectM v (path ++ [PathElem.idx (i0 + i)]) →
      x ∈ collectItems path i0 l := by
  induction l generalizing i with
  | nil => simp at hget
  | cons v0 rest ih =>
    intro i0 hx
    simp only [collectItems]
    cases i with
    | zero =>
      simp only [List.get?] at hget
      injection hget with hget
      subst hget
      exact List.mem_append_left _ (by simpa using hx)
    | succ n =>
      simp only [List.get?] at hget
      refine List.mem_append_right _ (ih hget (i0 + 1) ?_)
      have : i0 + 1 + n = i0 + (n + 1) := by omega
      rwa [this]

/-- Traversal to navigation: in a well-formed document, every collected pair
is a matched block at its path. -/
theorem collectM_to_matchedBlock :
    ∀ d : Yaml, wfY d = true →
      ∀ (path : List PathElem) (p : List PathElem) (rv : Yaml),
        (p, rv) ∈ collectM d path →
        ∃ p2, p = path ++ p2 ∧ matchedBlock d p2 = some rv := by
  intro d
  induction d using yamlRecMem with
  | hstr s => intro _ path p rv h; simp [collectM] at h
  | hint n => intro _ path p rv h; simp [collectM] at h
  | hbool b => intro _ path p rv h; simp [collectM] at h
  | hnull => intro _ path p rv h; simp [collectM] at h
  | hmap es ih =>
    intro hwf path p rv h
    simp only [wfY, Bool.and_eq_true] at hwf
    obtain ⟨hnd, hwfe⟩ := hwf
    simp only [collectM] at h
    rcases List.mem_append.mp h with h1 | h2
    · rcases hm : lookupY es "repository" with _ | rv0
      · rw [hm] at h1; simp at h1
      · rcases ht : lookupY es "tag" with _ | tv
        · rw [hm, ht] at h1; simp at h1
        · rw [hm, ht] at h1
          simp only [List.mem_singleton, Prod.mk.injEq] at h1
          refine ⟨[], by simp [h1.1], ?_⟩
          simp [matchedBlock, yamlAt, hm, ht, h1.2]
    · obtain ⟨kv, hkv, hmem⟩ := collectEntries_decomp h2
      obtain ⟨k, v⟩ := kv
      have hwfv : wfY v = true := by
        have step : ∀ l : List (String × Yaml), wfEntries l = true →
            (k, v) ∈ l → wfY v = true := by
          intro l
          induction l with
          | nil => intro _ h3; simp at h3
          | cons e2 rest2 ihl =>
            intro hw h3
            simp only [wfEntries, Bool.and_eq_true] at hw
            rcases List.mem_cons.mp h3 with heq | hmem2
            · obtain ⟨e2a, e2b⟩ := e2
              injection heq with hh1 hh2
              subst hh2
              exact hw.1
            · exact ihl hw.2 hmem2
        exact step es hwfe hkv
      obtain ⟨p2, hp2, hmb⟩ := ih (k, v) hkv hwfv _ p rv hmem
      refine ⟨PathElem.key k :: p2, by simp [hp2], ?_⟩
      have hlk : lookupY es k = some v := mem_lookupY hnd hkv
      simp only [matchedBlock, yamlAt, hlk]
      simpa [matchedBlock] using hmb
  | hseq l ih =>
    intro hwf path p rv h
    simp only [wfY] at hwf
    simp only [collectM] at h
    obtain ⟨n, v, hget, hmem⟩ := collectItems_decomp h
    have hv : v ∈ l := List.get?_mem hget
    have hwfv : wfY v = true := by
      have step : ∀ items : List Yaml, wfItems items = true →
          v ∈ items → wfY v = true := by
        intro items
        induction items with
        | nil => intro _ h3; simp at h3
        | cons v2 rest2 ihl =>
          intro hw h3
          simp only [wfItems, Bool.and_eq_true] at hw
          rcases List.mem_cons.mp h3 with heq | hmem2
          · subst heq; exact hw.1
          · exact ihl hw.2 hmem2
      exact step l hwf hv
    obtain ⟨p2, hp2, hmb⟩ := ih v hv hwfv _ p rv (by simpa using hmem)
    refine ⟨PathElem.idx n :: p2, by simp [hp2], ?_⟩
    simp only [matchedBlock, yamlAt, hget]
    simpa [matchedBlock] using hmb

/-- Navigation to traversal: every matched block is collected. -/
theorem matchedBlock_to_collectM :
    ∀ d : Yaml, ∀ (p2 : List PathElem) (rv : Yaml),
      matchedBlock d p2 = some rv →
      ∀ path : List PathElem, (path ++ p2, rv) ∈ collectM d path := by
  intro d
  induction d using yamlRecMem with
  | hstr s =>
    intro p2 rv h path
    cases p2 <;> simp [matchedBlock, yamlAt] at h
  | hint n =>
    intro p2 rv h path
    cases p2 <;> simp [matchedBlock, yamlAt] at h
  | hbool b =>
    intro p2 rv h path
    cases p2 <;> simp [matchedBlock, yamlAt] at h
  | hnull =>
    intro p2 rv h path
    cases p2 <;> simp [matchedBlock, yamlAt] at h
  | hmap es ih =>
    intro p2 rv h path
    cases p2 with
    | nil =>
      simp only [matchedBlock, yamlAt] at h
      rcases hm : lookupY es "repository" with _ | rv0
      · rw [hm] at h; simp at h
      · rcases ht : lookupY es "tag" with _ | tv
        · rw [hm, ht] at h; simp at h
        · rw [hm, ht] at h
          injection h with h
          subst h
          simp only [collectM, hm, ht]
          exact List.mem_append_left _ (by simp)
    | cons e p3 =>
      cases e with
      | key k =>
        simp only [matchedBlock, yamlAt] at h
        rcases hlk : lookupY es k with _ | v
        · rw [hlk] at h; simp at h
        · rw [hlk] at h
          have hmb : matchedBlock v p3 = some rv := by
            simpa [matchedBlock] using h
          have := ih (k, v) (lookupY_mem hlk) p3 rv hmb (path ++ [PathElem.key k])
          simp only [collectM]
          refine List.mem_append_right _ ?_
          have := collectEntries_of_mem (lookupY_mem hlk) this
          simpa using this
      | idx i => simp [matchedBlock, yamlAt] at h
  | hseq l ih =>
    intro p2 rv h path
    cases p2 with
    | nil => simp [matchedBlock, yamlAt] at h
    | cons e p3 =>
      cases e with
      | key k => simp [matchedBlock, yamlAt] at h
      | idx i =>
        simp only [matchedBlock, yamlAt] at h
        rcases hget : l.get? i with _ | v
        · rw [hget] at h; simp at h
        · rw [hget] at h
          have hmb : matchedBlock v p3 = some rv := by
            simpa [matchedBlock] using h
          have hv : v ∈ l := List.get?_mem hget
          have := ih v hv p3 rv hmb (path ++ [PathElem.idx i])
          simp only [collectM]
          have := collectItems_of_get hget 0 (by simpa using this)
          simpa using this

/-! ## The claims -/

/-- C1: for every configuration document and private registry, every mapping
node holding both `repository` and `tag` keys, at any depth (through
sequences, and below already-matching nodes), yields a node at the same path
of the fresh output tree whose `registry` is the private registry and whose
`repository` is the part of the original value after its final `/`; and the
output tree holds nothing else — every position in it lies on the path of
some matched node or is one of the two produced fields. The document is
well-formed (Python dict keys are unique) and the walk returns (the claim's
"output tree" exists; the raising case is claim C10). -/
theorem claim_C1 (preg : String) (d : Yaml) (out : OutVal)
    (hwf : wfY d = true) (hok : findAndUpdateImages preg d = .ok out) :
    (∀ (p : List PathElem) (rv : Yaml), matchedBlock d p = some rv →
      ∃ s, rv = Yaml.str s ∧
        lookupPath out (p ++ [PathElem.key "registry"]) = some (.str preg) ∧
        lookupPath out (p ++ [PathElem.key "repository"]) =
          some (.str (lastSegment s))) ∧
    (∀ q : List PathElem, (lookupPath out q).isSome → q = [] ∨
      ∃ (p : List PathElem) (rv : Yaml), matchedBlock d p = some rv ∧
        (q <+: p ∨ q = p ++ [PathElem.key "registry"] ∨
          q = p ++ [PathElem.key "repository"])) := by
  have hok2 : runWrites preg (collectM d []) (.node []) = .ok out := by
    simpa [findAndUpdateImages] using hok
  constructor
  · intro p rv hmb
    have hmem : (p, rv) ∈ collectM d [] := by
      simpa using matchedBlock_to_collectM d p rv hmb []
    obtain ⟨s, hs⟩ := runWrites_ok_str hok2 (p, rv) hmem
    have hs2 : rv = Yaml.str s := hs
    refine ⟨s, hs2, ?_⟩
    rw [hs2] at hmem
    exact runWrites_fields hok2 (collectM_pairwise d hwf []) hmem
  · intro q hq
    rcases runWrites_isSome_rev hok2 hq with hin | ⟨pv, hpv, hr⟩
    · exact Or.inl (lookupPath_empty_node hin)
    · obtain ⟨p1, rv1⟩ := pv
      obtain ⟨p2, hp2, hmb⟩ := collectM_to_matchedBlock d hwf [] p1 rv1 hpv
      simp only [List.nil_append] at hp2
      rw [hp2] at hr
      exact Or.inr ⟨p2, rv1, hmb, hr⟩

/-- Witness for C1: a nested image block is rewritten at its path with the
registry and the short repository name, on a concrete document. -/
theorem claim_C1_witness :
    lookupPath
      (.node [(PathElem.key "image", OutVal.node
        [(PathElem.key "registry", OutVal.str "reg.example.com/ns"),
         (PathElem.key "repository", OutVal.str "bar")])])
      [PathElem.key "image", PathElem.key "registry"] =
        some (OutVal.str "reg.example.com/ns") ∧
    lookupPath
      (.node [(PathElem.key "image", OutVal.node
        [(PathElem.key "registry", OutVal.str "reg.example.com/ns"),
         (PathElem.key "repository", OutVal.str "bar")])])
      [PathElem.key "image", PathElem.key "repository"] =
        some (OutVal.str "bar") := by
  have h := claim_C1 "reg.example.com/ns"
    (.map [("image", Yaml.map
      [("repository", Yaml.str "quay.io/foo/bar"), ("tag", Yaml.str "v1")])])
    (.node [(PathElem.key "image", OutVal.node
      [(PathElem.key "registry", OutVal.str "reg.example.com/ns"),
       (PathElem.key "repository", OutVal.str "bar")])])
    (by rfl) (by rfl)
  obtain ⟨s, hs, h1, h2⟩ :=
    h.1 [PathElem.key "image"] (Yaml.str "quay.io/foo/bar") (by rfl)
  injection hs with hs2
  subst hs2
  exact ⟨h1, h2⟩

/-- C7: whenever `generate_offline_values` produces an output tree, that
tree has `global.imageRegistry` equal to the private registry — also when
the source document has no `global` key and the walk put nothing under
`global` (the branch creates the `global` mapping). -/
theorem claim_C7 (preg : String) (d : Yaml) (out : OutVal)
    (hok : generateOfflineValues preg d = .ok out) :
    lookupPath out [PathElem.key "global", PathElem.key "imageRegistry"] =
      some (.str preg) := by
  cases hw : findAndUpdateImages preg d with
  | error e => simp [generateOfflineValues, hw] at hok
  | ok t =>
    obtain ⟨es, rfl⟩ := runWrites_ok_node
      (show runWrites preg (collectM d []) (.node []) = .ok t by
        simpa [findAndUpdateImages] using hw)
    cases hglv : lookupOut es (.key "global") with
    | none =>
      have h1 : lookupOut (es ++ [(PathElem.key "global", OutVal.node [])])
          (.key "global") = some (.node []) :=
        lookupOut_append_of_none _ _ _ hglv
      simp only [generateOfflineValues, hw, hglv, Option.isSome_none,
        Bool.false_eq_true, if_false, h1, Except.ok.injEq] at hok
      subst hok
      simp [lookupPath, lookupOut_setOut_self, setOut, lookupOut]
    | some v =>
      cases v with
      | node ges =>
        simp only [generateOfflineValues, hw, hglv, Option.isSome_some,
          if_true, Except.ok.injEq] at hok
        subst hok
        simp [lookupPath, lookupOut_setOut_self]
      | str s =>
        simp only [generateOfflineValues, hw, hglv, Option.isSome_some,
          if_true] at hok
        exact Except.noConfusion hok
      | seqV l =>
        simp only [generateOfflineValues, hw, hglv, Option.isSome_some,
          if_true] at hok
        exact Except.noConfusion hok

/-- Witness for C7: a document with no `global` key at all still gets
`global.imageRegistry` in the output. -/
theorem claim_C7_witness :
    lookupPath
      (.node [(PathElem.key "global", OutVal.node
        [(PathElem.key "imageRegistry", OutVal.str "my.reg/p")])])
      [PathElem.key "global", PathElem.key "imageRegistry"] =
        some (OutVal.str "my.reg/p") :=
  claim_C7 "my.reg/p" (.map [("replicaCount", Yaml.int 1)])
    (.node [(PathElem.key "global", OutVal.node
      [(PathElem.key "imageRegistry", OutVal.str "my.reg/p")])])
    (by rfl)

/-- C9: the output tree built by the walk contains no sequence node at all,
and every position along a matched path — also positions that were sequence
elements in the source, which appear as integer keys — holds a mapping
created by `setdefault`. -/
theorem claim_C9 (preg : String) (d : Yaml) (out : OutVal)
    (hwf : wfY d = true) (hok : findAndUpdateImages preg d = .ok out) :
    noSeq out = true ∧
    (∀ (p : List PathElem) (rv : Yaml), matchedBlock d p = some rv →
      ∀ q, q <+: p → ∃ es, lookupPath out q = some (.node es)) := by
  have hok2 : runWrites preg (collectM d []) (.node []) = .ok out := by
    simpa [findAndUpdateImages] using hok
  constructor
  · exact noSeq_of_good out
      (runWrites_preserve_good hok2 (by simp [goodOut, entriesOkay]))
  · intro p rv hmb q hq
    have hmem : (p, rv) ∈ collectM d [] := by
      simpa using matchedBlock_to_collectM d p rv hmb []
    exact runWrites_prefix_nodes hok2 (collectM_pairwise d hwf []) hmem hq

/-- Witness for C9: a source sequence position (`containers[0]`) shows up in
the output as an integer key inside a mapping, and the output has no
sequences. -/
theorem claim_C9_witness :
    noSeq (.node [(PathElem.key "containers", OutVal.node
      [(PathElem.idx 0, OutVal.node
        [(PathElem.key "registry", OutVal.str "r"),
         (PathElem.key "repository", OutVal.str "y")])])]) = true ∧
    ∃ es, lookupPath
      (.node [(PathElem.key "containers", OutVal.node
        [(PathElem.idx 0, OutVal.node
          [(PathElem.key "registry", OutVal.str "r"),
           (PathElem.key "repository", OutVal.str "y")])])])
      [PathElem.key "containers", PathElem.idx 0] = some (.node es) := by
  have h := claim_C9 "r"
    (.map [("containers", Yaml.seq
      [Yaml.map [("repository", Yaml.str "x/y"), ("tag", Yaml.str "2")]])])
    (.node [(PathElem.key "containers", OutVal.node
      [(PathElem.idx 0, OutVal.node
        [(PathElem.key "registry", OutVal.str "r"),
         (PathElem.key "repository", OutVal.str "y")])])])
    (by rfl) (by rfl)
  refine ⟨h.1, ?_⟩
  exact h.2 [PathElem.key "containers", PathElem.idx 0] (Yaml.str "x/y")
    (by rfl) _ (List.prefix_refl _)

/-- C10: the rewrite is total only under the precondition that every matched
block's `repository` value is a string. A matched block with a non-string
`repository` (a mapping, a number, null, …) makes the walk raise an
unhandled exception — the `.split('/')` failure, or the collision failure an
earlier write already caused — so no output document exists; under the
precondition the split-error branch is unreachable. -/
theorem claim_C10 (preg : String) (d : Yaml) :
    ((∃ (p : List PathElem) (rv : Yaml), matchedBlock d p = some rv ∧
        ∀ s, rv ≠ Yaml.str s) →
      ∃ e, generateOfflineValues preg d = .error e) ∧
    (wfY d = true →
      (∀ (p : List PathElem) (rv : Yaml), matchedBlock d p = some rv →
        ∃ s, rv = Yaml.str s) →
      generateOfflineValues preg d ≠ .error .attrSplit ∧
      findAndUpdateImages preg d ≠ .error .attrSplit) := by
  constructor
  · rintro ⟨p, rv, hmb, hns⟩
    have hmem : (p, rv) ∈ collectM d [] := by
      simpa using matchedBlock_to_collectM d p rv hmb []
    obtain ⟨e, he⟩ := @runWrites_bad_error preg (collectM d []) (.node [])
      ⟨(p, rv), hmem, hns⟩
    have he2 : findAndUpdateImages preg d = .error e := by
      simpa [findAndUpdateImages] using he
    exact ⟨e, by simp [generateOfflineValues, he2]⟩
  · intro hwf hstr
    have hall : ∀ pv ∈ collectM d [], ∃ s, pv.2 = Yaml.str s := by
      intro pv hpv
      obtain ⟨p1, rv1⟩ := pv
      obtain ⟨p2, hp2, hmb⟩ := collectM_to_matchedBlock d hwf [] p1 rv1 hpv
      exact hstr p2 rv1 hmb
    have hfa : findAndUpdateImages preg d ≠ .error .attrSplit := by
      intro hc
      exact runWrites_no_attrSplit hall (by simpa [findAndUpdateImages] using hc)
    refine ⟨?_, hfa⟩
    intro hc
    cases hw : findAndUpdateImages preg d with
    | error e =>
      simp only [generateOfflineValues, hw] at hc
      injection hc with hc2
      exact hfa (hc2 ▸ hw)
    | ok t =>
      cases t with
      | node es =>
        simp only [generateOfflineValues, hw] at hc
        rcases hglv : lookupOut (if (lookupOut es (.key "global")).isSome then es
            else es ++ [(.key "global", .node [])]) (.key "global") with _ | v
        · rw [hglv] at hc
          exact WalkErr.noConfusion (Except.error.inj hc)
        · rw [hglv] at hc
          cases v with
          | node ges => exact Except.noConfusion hc
          | str s => exact WalkErr.noConfusion (Except.error.inj hc)
          | seqV l => exact WalkErr.noConfusion (Except.error.inj hc)
      | str s => simp [generateOfflineValues, hw] at hc
      | seqV l => simp [generateOfflineValues, hw] at hc

/-- Witness for C10: a block whose `repository` value is `null` makes the
rewrite raise; a document whose only matched block has a string value never
reaches the split-error. -/
theorem claim_C10_witness :
    (∃ e, generateOfflineValues "r"
      (.map [("repository", Yaml.null), ("tag", Yaml.str "1")]) = .error e) ∧
    generateOfflineValues "r"
      (.map [("repository", Yaml.str "a/b"), ("tag", Yaml.str "1")]) ≠
        .error .attrSplit := by
  constructor
  · exact (claim_C10 "r" _).1
      ⟨[], Yaml.null, by rfl, fun s h => Yaml.noConfusion h⟩
  · refine ((claim_C10 "r" _).2 (by rfl) ?_).1
    intro p rv h
    have h2 := matchedBlock_to_collectM _ p rv h []
    rw [show collectM (.map [("repository", Yaml.str "a/b"), ("tag", Yaml.str "1")]) []
      = [([], Yaml.str "a/b")] from rfl] at h2
    simp only [List.nil_append, List.mem_singleton, Prod.mk.injEq] at h2
    exact ⟨"a/b", h2.2⟩

/-! ## Pipeline evaluation lemmas -/

/-- A completed process gives its announcement, the invocation, and the
stripped result. -/
theorem runCommandW_completed {w : World} {args : List String}
    {o e : String} {c : Int} (h : w.exec args = .completed o e c) :
    runCommandW w args =
      ([.print ("🔩 正在执行: " ++ String.intercalate " " args), .execPr args],
       .ok ⟨pyStrip o, pyStrip e, c⟩) := by
  simp [runCommandW, h, runCommandResult]

/-- The command runner never echoes the summary. -/
theorem runCommandW_noEcho (w : World) (args : List String) (s : String) :
    Effect.echoSummary s ∉ (runCommandW w args).1 := by
  unfold runCommandW
  cases w.exec args <;> simp

/-- Discovery when the template succeeds and the scan finds nothing. -/
theorem getImagesW_empty {w : World} {chart : String} {version : Option String}
    {o e : String} (h : w.exec (templateCmd chart version) = .completed o e 0)
    (hempty : findAll (pyStrip o).toList = []) :
    getImagesW w chart version =
      ([.print ("\n🔍 步骤 1: 在 Chart " ++ sq chart ++ " 中查找所有容器镜像..."),
        .print ("🔩 正在执行: " ++ String.intercalate " " (templateCmd chart version)),
        .execPr (templateCmd chart version),
        .print ("⚠️ 警告: 在 Chart " ++ sq chart ++ " 中没有找到任何镜像。")],
       .ok []) := by
  simp [getImagesW, runCommandW_completed h, CommandResult.success,
    show findAll (pyStrip o).data = [] from hempty]

/-- Discovery when the template succeeds and the scan finds something. -/
theorem getImagesW_nonempty {w : World} {chart : String} {version : Option String}
    {o e : String} (h : w.exec (templateCmd chart version) = .completed o e 0)
    (hne : (findAll (pyStrip o).toList).dedup ≠ []) :
    getImagesW w chart version =
      ([.print ("\n🔍 步骤 1: 在 Chart " ++ sq chart ++ " 中查找所有容器镜像..."),
        .print ("🔩 正在执行: " ++ String.intercalate " " (templateCmd chart version)),
        .execPr (templateCmd chart version),
        .print ("✅ 成功找到 " ++ toString (findAll (pyStrip o).toList).dedup.length ++
          " 个唯一镜像。")],
       .ok (findAll (pyStrip o).toList).dedup) := by
  have hne2 : ¬(findAll (pyStrip o).data = []) := by
    intro hc
    exact hne (by simp [String.toList, hc])
  simp [getImagesW, runCommandW_completed h, CommandResult.success, hne2]

/-- One mirrored image whose pull and tag succeed and whose push succeeds or
fails benignly completes without exiting. -/
theorem processImageW_ok {w : World} {img preg : String}
    {op ep : String} (hpull : w.exec ["docker", "pull", img] = .completed op ep 0)
    {ot et : String}
    (htag : w.exec ["docker", "tag", img, newImageTag img preg] = .completed ot et 0)
    {ou eu : String} {cu : Int}
    (hpush : w.exec ["docker", "push", newImageTag img preg] = .completed ou eu cu)
    (hbenign : cu = 0 ∨ strContains (pyStrip ou ++ pyStrip eu) immutableMsg = true) :
    (processImageW w img preg).2 = .ok () := by
  rcases hbenign with hb | hb
  · subst hb
    simp [processImageW, runCommandW_completed hpull, runCommandW_completed htag,
      runCommandW_completed hpush, CommandResult.success]
  · by_cases hc : cu = 0
    · subst hc
      simp [processImageW, runCommandW_completed hpull, runCommandW_completed htag,
        runCommandW_completed hpush, CommandResult.success]
    · have hcu : ((cu : Int) == 0) = false := by simp [hc]
      simp [processImageW, runCommandW_completed hpull, runCommandW_completed htag,
        runCommandW_completed hpush, CommandResult.success, hcu, hb]

/-- `process_image` never echoes the summary. -/
theorem processImageW_noEcho (w : World) (img preg : String) (s : String) :
    Effect.echoSummary s ∉ (processImageW w img preg).1 := by
  have hP := runCommandW_noEcho w ["docker", "pull", img] s
  have hT := runCommandW_noEcho w ["docker", "tag", img, newImageTag img preg] s
  have hU := runCommandW_noEcho w ["docker", "push", newImageTag img preg] s
  simp only [processImageW]
  rcases h1 : runCommandW w ["docker", "pull", img] with ⟨trP, resP⟩
  rw [h1] at hP
  rcases h2 : runCommandW w ["docker", "tag", img, newImageTag img preg]
    with ⟨trT, resT⟩
  rw [h2] at hT
  rcases h3 : runCommandW w ["docker", "push", newImageTag img preg]
    with ⟨trU, resU⟩
  rw [h3] at hU
  cases resP with
  | error e => simp [hP]
  | ok rp =>
    cases resT with
    | error e =>
      by_cases hs1 : rp.success = true <;> simp [hs1, hP, hT]
    | ok rt =>
      cases resU with
      | error e =>
        by_cases hs1 : rp.success = true <;> by_cases hs2 : rt.success = true <;>
          simp [hs1, hs2, hP, hT, hU]
      | ok ru =>
        by_cases hs1 : rp.success = true <;> by_cases hs2 : rt.success = true <;>
          by_cases hs3 : ru.success = true <;>
          by_cases hs4 : strContains (ru.stdout ++ ru.stderr) immutableMsg = true <;>
          simp [hs1, hs2, hs3, hs4, hP, hT, hU]

/-- The mirror loop completes when every image completes. -/
theorem processImagesW_ok {w : World} {preg : String} {imgs : List String}
    (h : ∀ img ∈ imgs, (processImageW w img preg).2 = .ok ()) :
    (processImagesW w preg imgs).2 = .ok () := by
  induction imgs with
  | nil => rfl
  | cons img rest ih =>
    have h1 := h img (by simp)
    rcases hx : processImageW w img preg with ⟨tr1, res1⟩
    rw [hx] at h1
    simp only at h1
    subst h1
    rcases hy : processImagesW w preg rest with ⟨tr2, res2⟩
    have h2 := ih (fun i hi => h i (List.mem_cons_of_mem _ hi))
    rw [hy] at h2
    simp only at h2
    subst h2
    simp [processImagesW, hx, hy]

/-- The mirror loop never echoes the summary. -/
theorem processImagesW_noEcho (w : World) (preg : String) (imgs : List String)
    (s : String) : Effect.echoSummary s ∉ (processImagesW w preg imgs).1 := by
  induction imgs with
  | nil => simp [processImagesW]
  | cons img rest ih =>
    have h1 := processImageW_noEcho w img preg s
    rcases hx : processImageW w img preg with ⟨tr1, res1⟩
    rw [hx] at h1
    rcases hy : processImagesW w preg rest with ⟨tr2, res2⟩
    rw [hy] at ih
    cases res1 with
    | error e => simpa [processImagesW, hx] using h1
    | ok u =>
      simp only [processImagesW, hx, hy, List.mem_append]
      rintro (h | h)
      · exact h1 h
      · exact ih h

/-- The values generation completes when the helm call succeeds, the
document parses and the walk returns. -/
theorem generateOfflineValuesW_ok {w : World} {chart preg outputDir : String}
    {version : Option String} {o e : String}
    (hshow : w.exec (showValuesCmd chart version) = .completed o e 0)
    {dv : Yaml} (hparse : w.parseYaml (pyStrip o) = some dv)
    {t : OutVal} (hwalk : generateOfflineValues preg dv = .ok t) :
    (generateOfflineValuesW w chart preg outputDir version).2 = .ok () := by
  unfold generateOfflineValuesW
  rw [runCommandW_completed hshow]
  simp [CommandResult.success, hparse, hwalk]

/-- The values generation never echoes the summary. -/
theorem generateOfflineValuesW_noEcho (w : World) (chart preg outputDir : String)
    (version : Option String) (s : String) :
    Effect.echoSummary s ∉ (generateOfflineValuesW w chart preg outputDir version).1 := by
  have hS := runCommandW_noEcho w (showValuesCmd chart version) s
  simp only [generateOfflineValuesW]
  rcases h1 : runCommandW w (showValuesCmd chart version) with ⟨tr1, res1⟩
  rw [h1] at hS
  cases res1 with
  | error e => simp [hS]
  | ok r =>
    by_cases hs1 : r.success = true
    · cases hp : w.parseYaml r.stdout with
      | none => simp [hs1, hp, hS]
      | some original =>
        cases hg : generateOfflineValues preg original with
        | error e => simp [hs1, hp, hg, hS]
        | ok t => simp [hs1, hp, hg, hS]
    · simp [hs1, hS]

/-- C2: discovery returns exactly the set of distinct captured tokens of the
image pattern — membership in the result is exactly being a captured token,
the result depends only on which tokens occur (not on multiplicity or
order), and the frozen example (`image: "a/b:1"` twice, `image: 'c:2'` once)
yields the two-element set. -/
theorem claim_C2 :
    (∀ (t : String) (tok : String),
      tok ∈ foundImages t ↔ tok ∈ findAll t.toList) ∧
    (∀ t1 t2 : String,
      (∀ tok, tok ∈ findAll t1.toList ↔ tok ∈ findAll t2.toList) →
      foundImages t1 = foundImages t2) ∧
    foundImages ("image: \"a/b:1\"\nimage: " ++ sq "c:2" ++ "\nimage: \"a/b:1\"") =
      {"a/b:1", "c:2"} := by
  refine ⟨?_, ?_, ?_⟩
  · intro t tok
    simp [foundImages]
  · intro t1 t2 h
    apply Finset.ext
    intro tok
    simp only [foundImages, List.mem_toFinset]
    exact h tok
  · decide

/-- Witness for C2: the two frozen example texts — different multiplicities
and order of the same two tokens — produce the same set. -/
theorem claim_C2_witness :
    foundImages ("image: \"a/b:1\"\nimage: " ++ sq "c:2" ++ "\nimage: \"a/b:1\"") =
      foundImages ("image: " ++ sq "c:2" ++ "\nimage: \"a/b:1\"") := by
  refine claim_C2.2.1 _ _ ?_
  intro tok
  rw [show findAll ("image: \"a/b:1\"\nimage: " ++ sq "c:2" ++
      "\nimage: \"a/b:1\"").toList = ["a/b:1", "c:2", "a/b:1"] from rfl,
    show findAll ("image: " ++ sq "c:2" ++ "\nimage: \"a/b:1\"").toList =
      ["c:2", "a/b:1"] from rfl]
  simp only [List.mem_cons, List.not_mem_nil, or_false]
  tauto

/-- C3: the mirror step derives the short name as the substring after the
final `/` of the original reference, and builds the target as
`registry/short-name`; the frozen example maps `registry.io/ns/app:1.0`
with registry `myreg.com/proj` to `myreg.com/proj/app:1.0`. -/
theorem claim_C3 :
    (∀ a b : String, (∀ c ∈ b.toList, c ≠ '/') →
      imageNamePart (a ++ "/" ++ b) = b) ∧
    newImageTag "registry.io/ns/app:1.0" "myreg.com/proj" =
      "myreg.com/proj/app:1.0" := by
  constructor
  · intro a b hb
    exact lastSegment_append a b hb
  · rfl

/-- Witness for C3: the short name of `registry.io/ns` + `/` + `app:1.0` is
`app:1.0`. -/
theorem claim_C3_witness :
    imageNamePart ("registry.io/ns" ++ "/" ++ "app:1.0") = "app:1.0" ∧
    newImageTag "registry.io/ns/app:1.0" "myreg.com/proj" =
      "myreg.com/proj/app:1.0" :=
  ⟨claim_C3.1 "registry.io/ns" "app:1.0" (by decide), claim_C3.2⟩

/-- C4: `process_image` continues to the next image exactly when pull and
tag succeeded and the push either succeeded or failed with the combined
stdout+stderr containing the immutable-tag substring; in every other case —
any other push failure, and every pull or tag failure — it aborts the
pipeline with `typer.Exit(code=1)`. -/
theorem claim_C4 (pullR tagR pushR : CommandResult) :
    (processImage pullR tagR pushR = .continueNext ↔
      (pullR.success = true ∧ tagR.success = true ∧
        (pushR.success = true ∨
          strContains (pushR.stdout ++ pushR.stderr) immutableMsg = true))) ∧
    (processImage pullR tagR pushR = .exitFatal ↔
      ¬(pullR.success = true ∧ tagR.success = true ∧
        (pushR.success = true ∨
          strContains (pushR.stdout ++ pushR.stderr) immutableMsg = true))) := by
  by_cases h1 : pullR.success = true <;>
    by_cases h2 : tagR.success = true <;>
    by_cases h3 : pushR.success = true <;>
    by_cases h4 : strContains (pushR.stdout ++ pushR.stderr) immutableMsg = true <;>
    simp [processImage, h1, h2, h3, h4]

/-- C5: a completed external process always comes back as a normal
`CommandResult` carrying the stripped streams and the exit status, never as
an exception, with `success` holding exactly for status zero; a missing
binary is an error and never a normal result. -/
theorem claim_C5 :
    (∀ (out err : String) (code : Int),
      runCommandResult (.completed out err code) =
        .ok ⟨pyStrip out, pyStrip err, code⟩) ∧
    (∀ (out err : String) (code : Int) (r : CommandResult),
      runCommandResult (.completed out err code) = .ok r →
        (r.success = true ↔ code = 0) ∧ r.stdout = pyStrip out ∧
        r.stderr = pyStrip err ∧ r.returncode = code) ∧
    (∀ r : CommandResult, runCommandResult .binaryNotFound ≠ .ok r) := by
  refine ⟨fun _ _ _ => rfl, ?_, fun r => by simp [runCommandResult]⟩
  intro out err code r h
  simp only [runCommandResult, Except.ok.injEq] at h
  subst h
  refine ⟨?_, rfl, rfl, rfl⟩
  simp [CommandResult.success]

/-- Witness for C5: a completed process with status 3 is a normal result
with stripped stdout and `success` false. -/
theorem claim_C5_witness :
    ((CommandResult.mk "out" "" 3).success = true ↔ (3 : Int) = 0) ∧
    (CommandResult.mk "out" "" 3).stdout = pyStrip " out " :=
  ⟨(claim_C5.2.1 " out " "" 3 ⟨"out", "", 3⟩ (by rfl)).1,
   (claim_C5.2.1 " out " "" 3 ⟨"out", "", 3⟩ (by rfl)).2.1⟩

/-- C6: when discovery succeeds but yields no images, the orchestrator exits
with a success status after the explanatory message, and no further side
effect happens: the only process invocations are the repository refresh and
the template rendering (so no image is pulled, tagged or pushed and no chart
archive is fetched), no directory is created, and no values file is
written. The repository refresh may have any exit status. -/
theorem claim_C6 (w : World) (chart registry : String) (version : Option String)
    (ns : String) {o0 e0 : String} {c0 : Int}
    (hrepo : w.exec repoUpdateCmd = .completed o0 e0 c0)
    {o1 e1 : String}
    (htmpl : w.exec (templateCmd chart version) = .completed o1 e1 0)
    (hempty : findAll (pyStrip o1).toList = []) :
    pipelineExitCode (runPipeline w chart registry version ns).2 = 0 ∧
    Effect.print "\n没有找到需要处理的镜像，程序退出。" ∈
      (runPipeline w chart registry version ns).1 ∧
    (∀ args, Effect.execPr args ∈ (runPipeline w chart registry version ns).1 →
      args = repoUpdateCmd ∨ args = templateCmd chart version) ∧
    (∀ dir, Effect.makeDirs dir ∉ (runPipeline w chart registry version ns).1) ∧
    (∀ path, Effect.writeValuesFile path ∉ (runPipeline w chart registry version ns).1) := by
  refine ⟨?_, ?_, ?_, ?_, ?_⟩ <;>
    by_cases hc0 : ((c0 : Int) == 0) = true <;>
    simp [runPipeline, runCommandW_completed hrepo, getImagesW_empty htmpl hempty,
      CommandResult.success, hc0, pipelineExitCode]

/-- Witness for C6: a concrete world whose template output contains no image
reference makes the pipeline exit 0 with only the two helm invocations. -/
theorem claim_C6_witness :
    pipelineExitCode ((runPipeline
      { exec := fun _ => .completed "" "" 0,
        parseYaml := fun _ => none, glob := fun _ => [] }
      "repo/chart" "reg.io/team" none "default").2) = 0 ∧
    (∀ dir, Effect.makeDirs dir ∉ (runPipeline
      { exec := fun _ => .completed "" "" 0,
        parseYaml := fun _ => none, glob := fun _ => [] }
      "repo/chart" "reg.io/team" none "default").1) := by
  have h := @claim_C6
    { exec := fun _ => .completed "" "" 0,
      parseYaml := fun _ => none, glob := fun _ => [] }
    "repo/chart" "reg.io/team" none "default"
    "" "" 0 rfl
    "" "" rfl (by rfl)
  exact ⟨h.1, h.2.2.2.1⟩

/-- C8: when every step up to and including the fetch succeeds but the glob
`<chart short name>-*.tgz` over the output directory matches nothing, the
pipeline exits with status 1 after an error message naming the output
directory, and the deployment summary is never echoed. -/
theorem claim_C8 (w : World) (chart registry : String) (version : Option String)
    (ns : String) {o0 e0 : String} {c0 : Int}
    (hrepo : w.exec repoUpdateCmd = .completed o0 e0 c0)
    {o1 e1 : String}
    (htmpl : w.exec (templateCmd chart version) = .completed o1 e1 0)
    (hne : (findAll (pyStrip o1).toList).dedup ≠ [])
    (hmirror : ∀ img ∈ sortImages ((findAll (pyStrip o1).toList).dedup),
      (∃ op ep, w.exec ["docker", "pull", img] = .completed op ep 0) ∧
      (∃ ot et, w.exec ["docker", "tag", img,
        newImageTag img (rstripSlash registry)] = .completed ot et 0) ∧
      (∃ ou eu cu, w.exec ["docker", "push",
          newImageTag img (rstripSlash registry)] = .completed ou eu cu ∧
        (cu = 0 ∨ strContains (pyStrip ou ++ pyStrip eu) immutableMsg = true)))
    {o2 e2 : String}
    (hshow : w.exec (showValuesCmd chart version) = .completed o2 e2 0)
    {dv : Yaml} (hparse : w.parseYaml (pyStrip o2) = some dv)
    {t : OutVal}
    (hwalk : generateOfflineValues (rstripSlash registry) dv = .ok t)
    {o3 e3 : String}
    (hfetch : w.exec (fetchCmd chart (outputDirOf chart version) version) =
      .completed o3 e3 0)
    (hglob : w.glob (outputDirOf chart version ++ "/" ++ lastSegment chart ++
      "-*.tgz") = []) :
    pipelineExitCode (runPipeline w chart registry version ns).2 = 1 ∧
    Effect.print ("❌ 错误: 在目录 " ++ outputDirOf chart version ++
      " 中找不到下载的 Chart 包。") ∈ (runPipeline w chart registry version ns).1 ∧
    (∀ s, Effect.echoSummary s ∉ (runPipeline w chart registry version ns).1) := by
  have hM2 : (processImagesW w (rstripSlash registry)
      (sortImages ((findAll (pyStrip o1).toList).dedup))).2 = .ok () := by
    refine processImagesW_ok ?_
    intro img hi
    obtain ⟨⟨op, ep, h1⟩, ⟨ot, et, h2⟩, ⟨ou, eu, cu, h3, h4⟩⟩ := hmirror img hi
    exact processImageW_ok h1 h2 h3 h4
  rcases hM : processImagesW w (rstripSlash registry)
      (sortImages ((findAll (pyStrip o1).toList).dedup)) with ⟨trM, resM⟩
  rw [hM] at hM2
  simp only at hM2
  subst hM2
  have hMecho : ∀ s, Effect.echoSummary s ∉ trM := by
    intro s
    have := processImagesW_noEcho w (rstripSlash registry)
      (sortImages ((findAll (pyStrip o1).toList).dedup)) s
    rw [hM] at this
    exact this
  have hG2 : (generateOfflineValuesW w chart (rstripSlash registry)
      (outputDirOf chart version) version).2 = .ok () :=
    generateOfflineValuesW_ok hshow hparse hwalk
  rcases hG : generateOfflineValuesW w chart (rstripSlash registry)
      (outputDirOf chart version) version with ⟨trG, resG⟩
  rw [hG] at hG2
  simp only at hG2
  subst hG2
  have hGecho : ∀ s, Effect.echoSummary s ∉ trG := by
    intro s
    have := generateOfflineValuesW_noEcho w chart (rstripSlash registry)
      (outputDirOf chart version) version s
    rw [hG] at this
    exact this
  have hne2 : (findAll (pyStrip o1).data).dedup ≠ [] := hne
  have hne3 : ¬(findAll (pyStrip o1).data = []) := by
    intro hc
    exact hne2 (by rw [hc]; rfl)
  have hMd : processImagesW w (rstripSlash registry)
      (sortImages ((findAll (pyStrip o1).data).dedup)) = (trM, .ok ()) := hM
  refine ⟨?_, ?_, ?_⟩ <;>
    by_cases hc0 : ((c0 : Int) == 0) = true <;>
    simp [runPipeline, runCommandW_completed hrepo, getImagesW_nonempty htmpl hne,
      runCommandW_completed hfetch, hMd, hG, hglob,
      CommandResult.success, hc0, pipelineExitCode, hMecho, hGecho, hne3]

/-- Witness for C8: a concrete world — one discovered image, all mirror and
helm steps succeeding, an empty glob — exits 1 and never echoes the summary. -/
theorem claim_C8_witness :
    pipelineExitCode ((runPipeline
      { exec := fun args =>
          if args = templateCmd "repo/chart" none then .completed "image: a" "" 0
          else .completed "" "" 0,
        parseYaml := fun _ => some (Yaml.map []), glob := fun _ => [] }
      "repo/chart" "reg.io/team" none "default").2) = 1 ∧
    (∀ s, Effect.echoSummary s ∉ (runPipeline
      { exec := fun args =>
          if args = templateCmd "repo/chart" none then .completed "image: a" "" 0
          else .completed "" "" 0,
        parseYaml := fun _ => some (Yaml.map []), glob := fun _ => [] }
      "repo/chart" "reg.io/team" none "default").1) := by
  have h := @claim_C8
    { exec := fun args =>
        if args = templateCmd "repo/chart" none then .completed "image: a" "" 0
        else .completed "" "" 0,
      parseYaml := fun _ => some (Yaml.map []), glob := fun _ => [] }
    "repo/chart" "reg.io/team" none "default"
    "" "" 0 (by rfl)
    "image: a" "" (by rfl)
    (by decide)
    (by
      intro img hi
      rw [show sortImages ((findAll (pyStrip "image: a").toList).dedup) = ["a"]
        from rfl] at hi
      simp only [List.mem_singleton] at hi
      subst hi
      refine ⟨⟨"", "", by rfl⟩, ⟨"", "", by rfl⟩, "", "", 0, by rfl, Or.inl rfl⟩)
    "" "" (by rfl)
    (Yaml.map []) (by rfl)
    (.node [(PathElem.key "global",
      OutVal.node [(PathElem.key "imageRegistry", OutVal.str "reg.io/team")])])
    (by rfl)
    "" "" (by rfl)
    (by rfl)
  exact ⟨h.1, h.2.2⟩

end ChartConverter
